import Mathlib

/-!
Verification of the resume/profile analysis service: shallow embedding of
the text-preprocessing pipeline (`preprocessor.py`), the Gemini response
recovery parser and score normalizer (`gemini_analyzer.py`), the text
extractors (`extractors.py`) and the GitHub profile summarizer
(`github_fetcher.py`), together with proofs and refutations of the
specified properties.

Strings are modelled as `List Char` (a Python `str` is a sequence of code
points); files are modelled as `List Nat` byte sequences.
-/

/-! ## Basic character and string helpers (Python semantics) -/

/-- The whitespace characters recognized by Python's `str.strip()` and the
regex class `\s` (ASCII range; the pipeline never introduces non-ASCII
whitespace). -/
def isSpacePy (c : Char) : Bool :=
  c = ' ' || c = '\t' || c = '\n' || c = '\r' || c = '\x0b' || c = '\x0c'

/-- ASCII alphanumeric test, matching the regex class `[a-zA-Z0-9]` used in
`preprocessor.py`. -/
def isAlnumAscii (c : Char) : Bool :=
  ('a' ≤ c && c ≤ 'z') || ('A' ≤ c && c ≤ 'Z') || ('0' ≤ c && c ≤ '9')

/-- Remove trailing Python-whitespace characters (the right half of
`str.strip()`). -/
def dropTrailingWs : List Char → List Char
  | [] => []
  | c :: cs =>
    let r := dropTrailingWs cs
    if r.isEmpty && isSpacePy c then [] else c :: r

/-- Python `str.strip()`: drop leading and trailing whitespace. -/
def pyStrip (s : List Char) : List Char :=
  dropTrailingWs (s.dropWhile isSpacePy)

/-- Python `text.split('\n')`. -/
def splitNL : List Char → List (List Char)
  | [] => [[]]
  | c :: cs =>
    if c = '\n' then [] :: splitNL cs
    else
      match splitNL cs with
      | [] => [[c]]
      | l :: ls => (c :: l) :: ls

/-- Python `'\n'.join(lines)`. -/
def joinNL : List (List Char) → List Char
  | [] => []
  | [l] => l
  | l :: ls => l ++ '\n' :: joinNL ls

/-- Python `s.startswith(pat)`. -/
def startsWithL : List Char → List Char → Bool
  | [], _ => true
  | _ :: _, [] => false
  | p :: ps, c :: cs => p = c && startsWithL ps cs

/-- Python `s.endswith(pat)`. -/
def endsWithL (pat s : List Char) : Bool :=
  startsWithL pat.reverse s.reverse

/-! ## `preprocessor.py` — `TextPreprocessor` -/

/-- Effect of `re.sub(r' +', ' ', text)`: collapse each maximal run of
space characters to a single space. -/
def collapseSpaces : List Char → List Char
  | [] => []
  | [c] => [c]
  | c :: d :: cs =>
    if c = ' ' && d = ' ' then collapseSpaces (d :: cs)
    else c :: collapseSpaces (d :: cs)

/-- Whether the maximal whitespace run at the head of the list contains a
newline (the condition under which `\n\s*\n+` matches right after a
leading `\n`). -/
def wsRunHasNL (cs : List Char) : Bool :=
  (cs.takeWhile isSpacePy).contains '\n'

/-- Drop everything up to and including the last `'\n'` occurring inside
the maximal whitespace run at the head of the list (the continuation
point after a `\n\s*\n+` match). -/
def afterLastNL : List Char → List Char
  | [] => []
  | c :: cs =>
    if isSpacePy c then
      if c = '\n' && !wsRunHasNL cs then cs else afterLastNL cs
    else c :: cs

/-- Fuelled scanner for `re.sub(r'\n\s*\n+', '\n\n', text)`.  At a `\n`
whose following whitespace run contains another `\n`, the regex matches
greedily from that `\n` through the last `\n` of the run and the match is
replaced by two newlines; scanning resumes after the match. -/
def subBlankF : Nat → List Char → List Char
  | 0, s => s
  | _ + 1, [] => []
  | f + 1, c :: cs =>
    if c = '\n' && wsRunHasNL cs then
      '\n' :: '\n' :: subBlankF f (afterLastNL cs)
    else c :: subBlankF f cs

/-- Effect of `re.sub(r'\n\s*\n+', '\n\n', text)`. -/
def subBlank (s : List Char) : List Char := subBlankF s.length s

/-- `TextPreprocessor.remove_extra_whitespace`: collapse space runs,
collapse blank-line runs, then strip every line. -/
def remove_extra_whitespace (s : List Char) : List Char :=
  joinNL (((splitNL (subBlank (collapseSpaces s))).map pyStrip))

/-- The character allowlist of `TextPreprocessor.remove_special_characters`:
with `preserve_basic` it is `[a-zA-Z0-9\s.,;:()\-+#/\n]`, otherwise
`[a-zA-Z0-9\s\n]` (the explicit `\n` is already covered by `\s`). -/
def allowedChar (preserveBasic : Bool) (c : Char) : Bool :=
  isAlnumAscii c || isSpacePy c ||
    (preserveBasic &&
      (c = '.' || c = ',' || c = ';' || c = ':' || c = '(' || c = ')' ||
       c = '-' || c = '+' || c = '#' || c = '/'))

/-- `TextPreprocessor.remove_special_characters`. -/
def remove_special_characters (s : List Char) (preserveBasic : Bool) : List Char :=
  s.filter (allowedChar preserveBasic)

/-- `TextPreprocessor.preprocess`: the full cleaning pipeline.  A
`ValueError` on empty input (before or after cleaning) is modelled as
`none`. -/
def preprocess (s : List Char) (aggressive : Bool) : Option (List Char) :=
  if (pyStrip s).isEmpty then none
  else
    let t1 := remove_extra_whitespace s
    let t2 := remove_special_characters t1 (!aggressive)
    let t3 := pyStrip t2
    if t3.isEmpty then none else some t3

/-- No two adjacent space characters (no run of 2+ spaces). -/
def noDoubleSpace : List Char → Bool
  | a :: b :: cs => !(a = ' ' && b = ' ') && noDoubleSpace (b :: cs)
  | _ => true

/-- No whitespace character other than `'\n'` directly after a `'\n'`
(every line is left-stripped). -/
def noWsAfterNL : List Char → Bool
  | a :: b :: cs => !(a = '\n' && isSpacePy b && !(b = '\n')) && noWsAfterNL (b :: cs)
  | _ => true

/-- No whitespace character other than `'\n'` directly before a `'\n'`
(every line is right-stripped). -/
def noWsBeforeNL : List Char → Bool
  | a :: b :: cs => !(isSpacePy a && !(a = '\n') && b = '\n') && noWsBeforeNL (b :: cs)
  | _ => true

/-- No three consecutive newlines (no run of 2+ blank lines). -/
def noTripleNL : List Char → Bool
  | a :: b :: c :: cs => !(a = '\n' && b = '\n' && c = '\n') && noTripleNL (b :: c :: cs)
  | _ => true

/-- No `'\n'` separated from a later `'\n'` purely by (non-newline)
whitespace: no whitespace-only non-empty line between two newlines. -/
def noWsGap : List Char → Bool
  | [] => true
  | c :: cs =>
    (if c = '\n' then !(wsRunHasNL cs && !(cs.head? = some '\n')) else true) && noWsGap cs

/-- No window of four consecutive lines whose two middle lines are both
empty (the line-level condition under which joining with newlines would
create a run of three newlines). -/
def noMidPair : List (List Char) → Bool
  | _ :: b :: c :: d :: rest => !(b.isEmpty && c.isEmpty) && noMidPair (b :: c :: d :: rest)
  | _ => true

/-- First character (if any) is not whitespace. -/
def headNonWs (s : List Char) : Bool :=
  match s.head? with
  | some c => !isSpacePy c
  | none => true

/-- Last character (if any) is not whitespace. -/
def lastNonWs (s : List Char) : Bool :=
  match s.getLast? with
  | some c => !isSpacePy c
  | none => true


/-! ## `gemini_analyzer.py` — `GeminiAnalyzer` -/

/-- JSON values as produced by `json.loads`.  Numbers are carried as exact
rationals; the recovery-parser claims do not depend on numeric values. -/
inductive Json where
  | null
  | bool (b : Bool)
  | num (q : ℚ)
  | str (s : List Char)
  | arr (elems : List Json)
  | obj (kvs : List (List Char × Json))

/-- Errors raised by `parse_gemini_response`: a `json.JSONDecodeError`
(surfaced with a bounded preview of the raw response, per the
`response_text[:500]` diagnostic) or any other exception while
post-processing the parsed value. -/
inductive GemErr where
  | malformed (preview : List Char)
  | processing
deriving DecidableEq

/-- Python `s.find('{')`: index of the first occurrence, if any. -/
def firstIdxOf (c : Char) : List Char → Option Nat
  | [] => none
  | d :: t => if d = c then some 0 else (firstIdxOf c t).map (· + 1)

/-- Python `s.rfind('}')`: index of the last occurrence, if any. -/
def lastIdxOf (c : Char) (t : List Char) : Option Nat :=
  match firstIdxOf c t.reverse with
  | some k => some (t.length - 1 - k)
  | none => none

/-- The slicing step of `parse_gemini_response`: if both a `{` and a `}`
occur, keep exactly `cleaned_text[start_idx:end_idx + 1]`. -/
def sliceBraces (t : List Char) : List Char :=
  match firstIdxOf '{' t, lastIdxOf '}' t with
  | some i, some j => (t.drop i).take (j + 1 - i)
  | _, _ => t

/-- The markdown-fence stripping step: drop a leading ```` ```json ```` or
```` ``` ```` opener, and a trailing ```` ``` ```` closer. -/
def fenceStrip (t : List Char) : List Char :=
  let t1 :=
    if startsWithL "```json".toList t then t.drop 7
    else if startsWithL "```".toList t then t.drop 3
    else t
  if endsWithL "```".toList t1 then t1.take (t1.length - 3) else t1

/-- The cleaned text handed to `json.loads` when no `{`/`}` pair is found:
strip, fence-strip, re-strip. -/
def preSliceText (rt : List Char) : List Char :=
  pyStrip (fenceStrip (pyStrip rt))

/-- The full cleaning pipeline of `parse_gemini_response` (steps 1–4). -/
def cleanResponse (rt : List Char) : List Char :=
  sliceBraces (preSliceText rt)

/-- Python substring test `p in s` for strings. -/
def isSubstr (p s : List Char) : Bool :=
  (List.range (s.length + 1)).any (fun i => startsWithL p (s.drop i))

/-- Python `field in parsed_data` for an arbitrary parsed JSON value:
key membership for a dict, element equality for a list, substring test for
a string; on other values `in` raises `TypeError` (`none`). -/
def jsonContains (j : Json) (key : List Char) : Option Bool :=
  match j with
  | .obj kvs => some (kvs.any (fun kv => kv.1 == key))
  | .arr xs => some (xs.any (fun x => match x with | .str s => s == key | _ => false))
  | .str s => some (isSubstr key s)
  | _ => none

/-- Python `parsed_data[field] = v`: dict item assignment succeeds
(replacing an existing key in place or appending a new one); on any other
value it raises (`none`). -/
def jsonSetItem (j : Json) (key : List Char) (v : Json) : Option Json :=
  match j with
  | .obj kvs =>
    some (.obj (if kvs.any (fun kv => kv.1 == key) then
      kvs.map (fun kv => if kv.1 == key then (kv.1, v) else kv)
    else kvs ++ [(key, v)]))
  | _ => none

/-- The four required top-level keys, in the order the code checks them. -/
def requiredFields : List (List Char) :=
  ["skills".toList, "experience".toList, "tech_stack".toList, "summary".toList]

/-- The back-fill default for a missing required field:
`{} if field in ['experience', 'tech_stack'] else [] if field == 'skills' else ""`. -/
def defaultFor (f : List Char) : Json :=
  if f = "experience".toList ∨ f = "tech_stack".toList then .obj []
  else if f = "skills".toList then .arr [] else .str []

/-- The validation loop of `parse_gemini_response`: for each required
field, if absent, assign its default; any `TypeError` from `in`/assignment
on a non-dict value surfaces as a generic processing error. -/
def backfillLoop : List (List Char) → Json → Except GemErr Json
  | [], j => .ok j
  | f :: fs, j =>
    match jsonContains j f with
    | none => .error .processing
    | some true => backfillLoop fs j
    | some false =>
      match jsonSetItem j f (defaultFor f) with
      | none => .error .processing
      | some j' => backfillLoop fs j'

/-- Python `field in kvs` for a dict's key-value list. -/
def hasKeyL (kvs : List (List Char × Json)) (f : List Char) : Bool :=
  kvs.any (fun kv => kv.1 == f)

/-- Python dict lookup `kvs[f]` (first binding of the key). -/
def lookupKey (kvs : List (List Char × Json)) (f : List Char) : Option Json :=
  (kvs.find? (fun kv => kv.1 == f)).map (fun kv => kv.2)

/-- The effect of the validation loop on a dict: append the default
binding for each required field that is absent, in order. -/
def backfillObj : List (List Char) → List (List Char × Json) → List (List Char × Json)
  | [], kvs => kvs
  | f :: fs, kvs =>
    backfillObj fs (if hasKeyL kvs f then kvs else kvs ++ [(f, defaultFor f)])

/-- `GeminiAnalyzer.parse_gemini_response`, with `json.loads` (a Python
standard-library function external to this repository) passed in as the
`loads` parameter. -/
def parse_gemini_response (loads : List Char → Option Json)
    (responseText : List Char) : Except GemErr Json :=
  match loads (cleanResponse responseText) with
  | none => .error (.malformed (responseText.take 500))
  | some j => backfillLoop requiredFields j

/-- A skill entry as consumed by `validate_skill_scores`: a dict with an
optional integer score (`int(skill['score'])` already applied). -/
structure SkillEntry where
  name : List Char
  score : Option Int
deriving DecidableEq

/-- `GeminiAnalyzer.validate_skill_scores`: clamp a present score with
`max(1, min(10, int(score)))`, default an absent score to 5. -/
def validate_skill_scores (skills : List SkillEntry) : List SkillEntry :=
  skills.map (fun sk =>
    match sk.score with
    | some n => { sk with score := some (max 1 (min 10 n)) }
    | none => { sk with score := some 5 })


/-! ## `extractors.py` — `TextExtractor` -/

/-- One step of the generator `line.strip() for line in ... if line.strip()`
(and of the page filter `if text and text.strip()`): keep the stripped
text when it is non-empty. -/
def stripKeepNonempty (l : List Char) : Option (List Char) :=
  if (pyStrip l).isEmpty then none else some (pyStrip l)

/-- The sentinel line returned for a scanned/image-only PDF. -/
def scannedSentinel : List Char :=
  ("[Warning: This appears to be a scanned or image-only PDF. " ++
   "No text could be extracted. Please provide a text-based PDF or use OCR.]").toList

/-- `TextExtractor.extract_from_pdf`, modelled from the point where the
page texts have been pulled (`page.extract_text()` may yield `None` or a
string): collect non-blank stripped page texts, fall back to the scanned
sentinel when none, then join the stripped non-blank entries with
newlines.  File access and decryption are I/O boundaries outside the
model. -/
def extract_from_pdf_pages (pages : List (Option (List Char))) : List Char :=
  let tc := pages.filterMap (fun t? => t?.bind stripKeepNonempty)
  let tc2 := if tc.isEmpty then [scannedSentinel] else tc
  joinNL (tc2.filterMap stripKeepNonempty)

/-- UTF-8 continuation byte test. -/
def isCont (b : Nat) : Bool := 0x80 ≤ b && b ≤ 0xBF

/-- Strict UTF-8 decoding of a byte sequence (as Python's `utf-8` codec:
rejects continuation-first bytes, overlong forms, surrogates, and code
points above `U+10FFFF`). -/
def utf8Decode : List Nat → Option (List Char)
  | [] => some []
  | b :: bs =>
    if b < 0x80 then (utf8Decode bs).map (fun cs => Char.ofNat b :: cs)
    else if b < 0xC2 then none
    else if b ≤ 0xDF then
      match bs with
      | b2 :: bs2 =>
        if isCont b2 then
          (utf8Decode bs2).map (fun cs => Char.ofNat ((b - 0xC0) * 0x40 + (b2 - 0x80)) :: cs)
        else none
      | [] => none
    else if b ≤ 0xEF then
      match bs with
      | b2 :: b3 :: bs3 =>
        if isCont b2 && isCont b3 && !(b = 0xE0 && b2 < 0xA0) && !(b = 0xED && 0x9F < b2) then
          (utf8Decode bs3).map (fun cs =>
            Char.ofNat ((b - 0xE0) * 0x1000 + (b2 - 0x80) * 0x40 + (b3 - 0x80)) :: cs)
        else none
      | _ => none
    else if b ≤ 0xF4 then
      match bs with
      | b2 :: b3 :: b4 :: bs4 =>
        if isCont b2 && isCont b3 && isCont b4 && !(b = 0xF0 && b2 < 0x90) && !(b = 0xF4 && 0x8F < b2) then
          (utf8Decode bs4).map (fun cs =>
            Char.ofNat ((b - 0xF0) * 0x40000 + (b2 - 0x80) * 0x1000 + (b3 - 0x80) * 0x40 + (b4 - 0x80)) :: cs)
        else none
      | _ => none
    else none

/-- Latin-1 (`latin-1` / `iso-8859-1`) decoding: every byte maps to the
code point of the same value, so decoding never fails. -/
def latin1Decode (bs : List Nat) : List Char := bs.map Char.ofNat

/-- CP1252 decoding of one byte: the 0x80–0x9F row is remapped (with five
undefined positions that raise `UnicodeDecodeError`), everything else is
as Latin-1. -/
def cp1252Byte (b : Nat) : Option Nat :=
  match b with
  | 0x80 => some 0x20AC | 0x81 => none | 0x82 => some 0x201A | 0x83 => some 0x0192
  | 0x84 => some 0x201E | 0x85 => some 0x2026 | 0x86 => some 0x2020 | 0x87 => some 0x2021
  | 0x88 => some 0x02C6 | 0x89 => some 0x2030 | 0x8A => some 0x0160 | 0x8B => some 0x2039
  | 0x8C => some 0x0152 | 0x8D => none | 0x8E => some 0x017D | 0x8F => none
  | 0x90 => none | 0x91 => some 0x2018 | 0x92 => some 0x2019 | 0x93 => some 0x201C
  | 0x94 => some 0x201D | 0x95 => some 0x2022 | 0x96 => some 0x2013 | 0x97 => some 0x2014
  | 0x98 => some 0x02DC | 0x99 => some 0x2122 | 0x9A => some 0x0161 | 0x9B => some 0x203A
  | 0x9C => some 0x0153 | 0x9D => none | 0x9E => some 0x017E | 0x9F => some 0x0178
  | _ => some b

/-- CP1252 decoding of a byte sequence. -/
def cp1252Decode (bs : List Nat) : Option (List Char) :=
  (bs.mapM cp1252Byte).map (fun ns => ns.map Char.ofNat)

/-- Universal-newline translation performed by reading a file in text
mode: `\r\n` and bare `\r` both become `\n`. -/
def uniNewlines : List Char → List Char
  | [] => []
  | '\r' :: '\n' :: cs => '\n' :: uniNewlines cs
  | '\r' :: cs => '\n' :: uniNewlines cs
  | c :: cs => c :: uniNewlines cs

/-- Failure of `extract_from_txt`, naming the attempted encodings. -/
inductive TxtError where
  | undecodable (attempted : List (List Char))
deriving DecidableEq

/-- The fixed ordered encoding list of `extract_from_txt`. -/
def txtEncodings : List (List Char) :=
  ["utf-8".toList, "latin-1".toList, "cp1252".toList, "iso-8859-1".toList]

/-- Decoding a byte sequence with one named encoding from the list. -/
def decodeAttempt (enc : List Char) (bs : List Nat) : Option (List Char) :=
  if enc = "utf-8".toList then utf8Decode bs
  else if enc = "latin-1".toList then some (latin1Decode bs)
  else if enc = "cp1252".toList then cp1252Decode bs
  else if enc = "iso-8859-1".toList then some (latin1Decode bs)
  else none

/-- The `for encoding in encodings: try ... except UnicodeDecodeError`
loop. -/
def tryEncodingsLoop : List (List Char) → List Nat → Option (List Char)
  | [], _ => none
  | e :: es, bs =>
    match decodeAttempt e bs with
    | some t => some t
    | none => tryEncodingsLoop es bs

/-- The whitespace cleanup of `extract_from_txt`: strip every line and
drop the blank ones. -/
def cleanTxt (t : List Char) : List Char :=
  joinNL (((splitNL t).map pyStrip).filter (fun l => !l.isEmpty))

/-- `TextExtractor.extract_from_txt` on the file's raw bytes. -/
def extract_from_txt (bs : List Nat) : Except TxtError (List Char) :=
  match tryEncodingsLoop txtEncodings bs with
  | some t => .ok (cleanTxt (uniNewlines t))
  | none => .error (.undecodable txtEncodings)

/-! ## `github_fetcher.py` — `GitHubFetcher.summarize_data` -/

/-- A repository record as returned by the GitHub API (the fields
`summarize_data` reads; `fork` and `topics` are read with `.get`, the
rest by indexing). -/
structure Repo where
  name : List Char
  description : Option (List Char)
  language : Option (List Char)
  stargazers_count : Nat
  forks_count : Nat
  topics : List (List Char)
  html_url : List Char
  updated_at : List Char
  size : Nat
  fork : Bool
deriving DecidableEq

/-- One entry of `repos_summary`. -/
structure RepoSummary where
  name : List Char
  description : List Char
  language : List Char
  stars : Nat
  forks : Nat
  topics : List (List Char)
  url : List Char
  updated_at : List Char
  size : Nat
deriving DecidableEq

/-- A user record as returned by the GitHub API (every field is read with
`.get`, hence optional). -/
structure GitHubUser where
  login : Option (List Char)
  name : Option (List Char)
  bio : Option (List Char)
  location : Option (List Char)
  company : Option (List Char)
  email : Option (List Char)
  blog : Option (List Char)
  twitter_username : Option (List Char)
  followers : Option Nat
  following : Option Nat
  public_repos : Option Nat
  created_at : Option (List Char)
  html_url : Option (List Char)
deriving DecidableEq

/-- Python `x or default` for an optional string (`None` and `""` are
falsy). -/
def pyOrStr (a : Option (List Char)) (d : List Char) : List Char :=
  match a with
  | some s => if s.isEmpty then d else s
  | none => d

/-- Python `x or y` for two optional strings. -/
def pyOrOpt (a b : Option (List Char)) : Option (List Char) :=
  match a with
  | some s => if s.isEmpty then b else some s
  | none => b

/-- The `"user"` block of the summary. -/
structure UserOut where
  username : Option (List Char)
  name : Option (List Char)
  bio : List Char
  location : Option (List Char)
  company : Option (List Char)
  email : Option (List Char)
  blog : Option (List Char)
  twitter : Option (List Char)
  followers : Nat
  following : Nat
  public_repos : Nat
  created_at : Option (List Char)
  profile_url : Option (List Char)

/-- The `"activity_metrics"` block.  The two ratios are kept as exact
rationals; the Python code additionally rounds the floats to two decimals
for display, which no claim depends on. -/
structure ActivityMetrics where
  repos_per_year : ℚ
  avg_stars_per_repo : ℚ

/-- The `"stats"` block.  `languages_used` is the counting function
underlying the `defaultdict(int)`; `topics_explored` is the Python `set`
(whose listing order is unspecified). -/
structure GitHubStats where
  total_repositories : Nat
  languages_used : List Char → Nat
  total_stars_earned : Nat
  total_forks : Nat
  topics_explored : Finset (List Char)
  activity : ActivityMetrics

/-- The full summary returned by `summarize_data`. -/
structure GitHubSummary where
  user : UserOut
  stats : GitHubStats
  repositories : List RepoSummary

/-- The skip condition of the aggregation loop, negated: a repository is
kept unless it is a fork with zero stars. -/
def repoKept (r : Repo) : Bool := !(r.fork && r.stargazers_count == 0)

/-- The repositories that survive the skip. -/
def keptRepos (rs : List Repo) : List Repo := rs.filter repoKept

/-- One entry appended to `repos_summary`. -/
def mkRepoSummary (r : Repo) : RepoSummary :=
  { name := r.name
    description := pyOrStr r.description "No description".toList
    language := pyOrStr r.language "Not specified".toList
    stars := r.stargazers_count
    forks := r.forks_count
    topics := r.topics
    url := r.html_url
    updated_at := r.updated_at
    size := r.size }

/-- The ordering used by `repos_summary.sort(key=lambda x: x["stars"],
reverse=True)`: stars descending (stable for ties, as CPython's sort). -/
def starsDesc (a b : RepoSummary) : Prop := b.stars ≤ a.stars

instance : DecidableRel starsDesc := fun a b => inferInstanceAs (Decidable (b.stars ≤ a.stars))

instance : IsTotal RepoSummary starsDesc :=
  ⟨fun a b => by unfold starsDesc; exact (Nat.le_total a.stars b.stars).symm⟩

instance : IsTrans RepoSummary starsDesc :=
  ⟨fun _ _ _ h h' => by unfold starsDesc at *; exact Nat.le_trans h' h⟩

/-- Value of Python `int(s)` on a string: optional surrounding whitespace,
optional sign, then decimal digits (underscore grouping not modelled). -/
def digitsVal (ds : List Char) : Option Nat :=
  if ds.isEmpty then none
  else ds.foldlM (fun acc c =>
    if '0' ≤ c && c ≤ '9' then some (acc * 10 + (c.toNat - '0'.toNat)) else none) 0

/-- Python `int(s)` for possibly signed decimal strings; `none` models the
`ValueError` it raises otherwise. -/
def parseIntPy (s : List Char) : Option Int :=
  match pyStrip s with
  | '-' :: r => (digitsVal r).map (fun n => -(n : Int))
  | '+' :: r => (digitsVal r).map (fun n => (n : Int))
  | r => (digitsVal r).map (fun n => (n : Int))

/-- `int(user_data.get("created_at", "2020")[:4])`. -/
def created_year (u : GitHubUser) : Option Int :=
  parseIntPy ((u.created_at.getD "2020".toList).take 4)

/-- `GitHubFetcher.summarize_data`.  The `ValueError` that
`int(created_at[:4])` would raise on a malformed date is modelled as
`none`. -/
def summarize_data (u : GitHubUser) (rs : List Repo) : Option GitHubSummary :=
  match created_year u with
  | none => none
  | some year =>
    let kept := keptRepos rs
    let totalStars := (kept.map (fun r => r.stargazers_count)).sum
    let accountAgeDays : ℚ := (2025 - (year : ℚ)) * 365
    some {
      user := {
        username := u.login
        name := pyOrOpt u.name u.login
        bio := pyOrStr u.bio "No bio provided".toList
        location := u.location
        company := u.company
        email := u.email
        blog := u.blog
        twitter := u.twitter_username
        followers := u.followers.getD 0
        following := u.following.getD 0
        public_repos := u.public_repos.getD 0
        created_at := u.created_at
        profile_url := u.html_url }
      stats := {
        total_repositories := rs.length
        languages_used := fun l => kept.countP (fun r => r.language == some l)
        total_stars_earned := totalStars
        total_forks := (kept.map (fun r => r.forks_count)).sum
        topics_explored := kept.foldl (fun acc r => acc ∪ r.topics.toFinset) ∅
        activity := {
          repos_per_year := (rs.length : ℚ) / max (accountAgeDays / 365) 1
          avg_stars_per_repo :=
            if rs.isEmpty then 0 else (totalStars : ℚ) / (rs.length : ℚ) } }
      repositories := (List.insertionSort starsDesc (kept.map mkRepoSummary)).take 20 }


/-! ## Helper lemmas on stripping -/

theorem dropTrailingWs_cons (x : Char) (cs : List Char) :
    dropTrailingWs (x :: cs) =
      if (dropTrailingWs cs).isEmpty && isSpacePy x then [] else x :: dropTrailingWs cs := rfl

theorem mem_dropTrailingWs {c : Char} {t : List Char} (h : c ∈ dropTrailingWs t) : c ∈ t := by
  induction t with
  | nil => simp [dropTrailingWs] at h
  | cons x cs ih =>
    rw [dropTrailingWs_cons] at h
    by_cases hc : ((dropTrailingWs cs).isEmpty && isSpacePy x) = true
    · rw [if_pos hc] at h
      simp at h
    · rw [if_neg hc] at h
      rcases List.mem_cons.mp h with h | h
      · exact h ▸ List.mem_cons_self _ _
      · exact List.mem_cons_of_mem _ (ih h)

theorem mem_pyStrip {c : Char} {s : List Char} (h : c ∈ pyStrip s) : c ∈ s :=
  (List.dropWhile_sublist isSpacePy).mem (mem_dropTrailingWs h)

theorem dropTrailingWs_eq_self {t : List Char}
    (h : ∀ c, t.getLast? = some c → isSpacePy c = false) : dropTrailingWs t = t := by
  induction t with
  | nil => rfl
  | cons x cs ih =>
    cases cs with
    | nil =>
      have hx := h x rfl
      rw [dropTrailingWs_cons]
      simp [dropTrailingWs, hx]
    | cons y cs' =>
      have hcs : dropTrailingWs (y :: cs') = y :: cs' :=
        ih (fun c hc => h c ((List.getLast?_cons_cons ..).symm ▸ hc))
      rw [dropTrailingWs_cons, hcs]
      simp

theorem dropTrailingWs_append_ws {t : List Char} {w : Char} (hw : isSpacePy w = true) :
    dropTrailingWs (t ++ [w]) = dropTrailingWs t := by
  induction t with
  | nil => simp [dropTrailingWs, hw]
  | cons x cs ih =>
    rw [List.cons_append, dropTrailingWs_cons, ih, dropTrailingWs_cons]

theorem dropTrailingWs_prefix (t : List Char) : ∃ r, t = dropTrailingWs t ++ r := by
  induction t with
  | nil => exact ⟨[], rfl⟩
  | cons x cs ih =>
    obtain ⟨r, hr⟩ := ih
    rw [dropTrailingWs_cons]
    by_cases hc : ((dropTrailingWs cs).isEmpty && isSpacePy x) = true
    · exact ⟨x :: cs, by rw [if_pos hc]; rfl⟩
    · exact ⟨r, by rw [if_neg hc, List.cons_append, ← hr]⟩

theorem dropWhile_ws_append {a b : List Char}
    (hb : ∀ c, b.head? = some c → isSpacePy c = false) (hb0 : b ≠ []) :
    (a ++ b).dropWhile isSpacePy = a.dropWhile isSpacePy ++ b := by
  induction a with
  | nil =>
    cases b with
    | nil => exact absurd rfl hb0
    | cons c b' => simp [List.dropWhile_cons, hb c rfl]
  | cons x a' ih =>
    cases hx : isSpacePy x with
    | true => simpa [List.dropWhile_cons, hx] using ih
    | false => simp [List.dropWhile_cons, hx]

theorem pyStrip_eq_self {s : List Char}
    (h1 : ∀ c, s.head? = some c → isSpacePy c = false)
    (h2 : ∀ c, s.getLast? = some c → isSpacePy c = false) : pyStrip s = s := by
  cases s with
  | nil => rfl
  | cons c cs =>
    unfold pyStrip
    rw [List.dropWhile_cons, if_neg (by simp [h1 c rfl])]
    exact dropTrailingWs_eq_self h2

theorem head_dropWhile_ws {s : List Char} {c : Char}
    (h : (s.dropWhile isSpacePy).head? = some c) : isSpacePy c = false := by
  induction s with
  | nil => simp at h
  | cons x cs ih =>
    rw [List.dropWhile_cons] at h
    cases hx : isSpacePy x with
    | true => rw [hx] at h; exact ih (by simpa using h)
    | false =>
      rw [hx] at h
      simp only [Bool.false_eq_true, if_false, List.head?_cons, Option.some.injEq] at h
      exact h ▸ hx

theorem pyStrip_head_not_ws {s : List Char} {c : Char}
    (h : (pyStrip s).head? = some c) : isSpacePy c = false := by
  unfold pyStrip at h
  obtain ⟨r, hr⟩ := dropTrailingWs_prefix (s.dropWhile isSpacePy)
  apply head_dropWhile_ws (s := s) (c := c)
  rw [hr, List.head?_append, h]
  rfl

theorem getLast_dropTrailingWs {t : List Char} {c : Char}
    (h : (dropTrailingWs t).getLast? = some c) : isSpacePy c = false := by
  induction t with
  | nil => simp [dropTrailingWs] at h
  | cons x cs ih =>
    rw [dropTrailingWs_cons] at h
    by_cases hc : ((dropTrailingWs cs).isEmpty && isSpacePy x) = true
    · rw [if_pos hc] at h
      simp at h
    · rw [if_neg hc] at h
      cases he : dropTrailingWs cs with
      | nil =>
        rw [he] at h
        simp only [List.getLast?_singleton, Option.some.injEq] at h
        rw [he] at hc
        simp only [List.isEmpty_nil, Bool.true_and] at hc
        exact h ▸ (Bool.not_eq_true _).mp hc
      | cons y r =>
        rw [he, List.getLast?_cons_cons] at h
        exact ih (he ▸ h)

theorem pyStrip_last_not_ws {s : List Char} {c : Char}
    (h : (pyStrip s).getLast? = some c) : isSpacePy c = false :=
  getLast_dropTrailingWs h

theorem pyStrip_idem (s : List Char) : pyStrip (pyStrip s) = pyStrip s :=
  pyStrip_eq_self (fun _ h => pyStrip_head_not_ws h) (fun _ h => pyStrip_last_not_ws h)

/-! ## Claim C4 — score normalization -/

/-- C4: `validate_skill_scores` is a deterministic total function: it maps
each entry pointwise, clamping a present score into `[1, 10]` and
defaulting an absent score to 5, and every returned entry carries a score
in `[1, 10]`; no entry is ever rejected. -/
theorem validate_skill_scores_clamps (skills : List SkillEntry) :
    (validate_skill_scores skills).length = skills.length ∧
    (∀ i : Nat, (validate_skill_scores skills)[i]? = skills[i]?.map (fun sk =>
      match sk.score with
      | some n => { sk with score := some (max 1 (min 10 n)) }
      | none => { sk with score := some 5 })) ∧
    (∀ sk ∈ validate_skill_scores skills, ∃ n : Int, sk.score = some n ∧ 1 ≤ n ∧ n ≤ 10) := by
  refine ⟨by simp [validate_skill_scores],
    fun i => by simp [validate_skill_scores, List.getElem?_map], ?_⟩
  intro sk hsk
  rw [validate_skill_scores, List.mem_map] at hsk
  obtain ⟨sk₀, -, rfl⟩ := hsk
  cases h : sk₀.score with
  | none =>
    refine ⟨5, ?_, by norm_num, by norm_num⟩
    simp only [h]
  | some n =>
    refine ⟨max 1 (min 10 n), ?_, le_max_left _ _, max_le (by norm_num) (min_le_left _ _)⟩
    simp only [h]

/-- Witness for C4: the spec's example scores 15, 0 and missing map to 10,
1 and 5, and the general theorem applies. -/
theorem validate_skill_scores_clamps_witness :
    validate_skill_scores
        [⟨"Python".toList, some 15⟩, ⟨"Go".toList, some 0⟩, ⟨"C".toList, none⟩]
      = [⟨"Python".toList, some 10⟩, ⟨"Go".toList, some 1⟩, ⟨"C".toList, some 5⟩] ∧
    (∀ sk ∈ validate_skill_scores
        [⟨"Python".toList, some 15⟩, ⟨"Go".toList, some 0⟩, ⟨"C".toList, none⟩],
      ∃ n : Int, sk.score = some n ∧ 1 ≤ n ∧ n ≤ 10) :=
  ⟨by decide, (validate_skill_scores_clamps _).2.2⟩

/-! ## Claims C10, C8, C7 — extractors -/

theorem decodeAttempt_utf8 (bs : List Nat) :
    decodeAttempt "utf-8".toList bs = utf8Decode bs := rfl

theorem decodeAttempt_latin1 (bs : List Nat) :
    decodeAttempt "latin-1".toList bs = some (latin1Decode bs) := rfl

/-- C10: the `UndecodableEncoding` branch of `extract_from_txt` is
unreachable — Latin-1, second in the attempted list, decodes every byte
sequence, so the function always returns a decoded result. -/
theorem extract_from_txt_total (bs : List Nat) : ∃ t, extract_from_txt bs = Except.ok t := by
  cases hu : utf8Decode bs with
  | some t =>
    refine ⟨cleanTxt (uniNewlines t), ?_⟩
    unfold extract_from_txt txtEncodings
    simp only [tryEncodingsLoop, decodeAttempt_utf8, hu]
  | none =>
    refine ⟨cleanTxt (uniNewlines (latin1Decode bs)), ?_⟩
    unfold extract_from_txt txtEncodings
    simp only [tryEncodingsLoop, decodeAttempt_utf8, hu, decodeAttempt_latin1]

/-- C8 (amended): on any byte sequence that is not valid UTF-8 — such as a
CP1252 smart quote — `extract_from_txt` succeeds by falling back to
Latin-1, the second encoding in the list; the CP1252 decoder is never
reached. -/
theorem extract_from_txt_latin1_fallback (bs : List Nat) (h : utf8Decode bs = none) :
    extract_from_txt bs = Except.ok (cleanTxt (uniNewlines (latin1Decode bs))) := by
  unfold extract_from_txt txtEncodings
  simp only [tryEncodingsLoop, decodeAttempt_utf8, h, decodeAttempt_latin1]

/-- Witness for C8: the CP1252 smart-quote bytes `93 48 69 94` are invalid
UTF-8, and the amended theorem applies to them. -/
theorem extract_from_txt_latin1_fallback_witness :
    utf8Decode [0x93, 0x48, 0x69, 0x94] = none ∧
    extract_from_txt [0x93, 0x48, 0x69, 0x94]
      = Except.ok (cleanTxt (uniNewlines (latin1Decode [0x93, 0x48, 0x69, 0x94]))) :=
  ⟨rfl, extract_from_txt_latin1_fallback _ rfl⟩

/-- C8 counterexample: on a CP1252-encoded TXT file with smart quotes
(`"\x93Hi\x94"`), extraction succeeds but returns the Latin-1 decoding
(C1 control characters `U+0093`/`U+0094`), not the CP1252 decoding
(`U+201C`/`U+201D`) that the claim says is fallen back to. -/
theorem extract_from_txt_not_cp1252 :
    extract_from_txt [0x93, 0x48, 0x69, 0x94]
      = Except.ok [Char.ofNat 0x93, 'H', 'i', Char.ofNat 0x94] ∧
    cleanTxt (uniNewlines ((cp1252Decode [0x93, 0x48, 0x69, 0x94]).getD []))
      = [Char.ofNat 0x201C, 'H', 'i', Char.ofNat 0x201D] ∧
    extract_from_txt [0x93, 0x48, 0x69, 0x94]
      ≠ Except.ok [Char.ofNat 0x201C, 'H', 'i', Char.ofNat 0x201D] := by
  refine ⟨rfl, rfl, ?_⟩
  intro hcontra
  rw [show extract_from_txt [0x93, 0x48, 0x69, 0x94]
      = Except.ok [Char.ofNat 0x93, 'H', 'i', Char.ofNat 0x94] from rfl] at hcontra
  simp only [Except.ok.injEq] at hcontra
  exact (by decide :
    ¬([Char.ofNat 0x93, 'H', 'i', Char.ofNat 0x94]
      = [Char.ofNat 0x201C, 'H', 'i', Char.ofNat 0x201D])) hcontra

theorem joinNL_cons_ne_nil {l : List Char} {ls : List (List Char)} (h : l ≠ []) :
    joinNL (l :: ls) ≠ [] := by
  cases ls with
  | nil => simpa [joinNL] using h
  | cons m ms => simp [joinNL]

theorem stripKeepNonempty_eq_some {s l : List Char} (h : stripKeepNonempty s = some l) :
    l = pyStrip s ∧ l ≠ [] := by
  unfold stripKeepNonempty at h
  by_cases he : (pyStrip s).isEmpty = true
  · rw [if_pos he] at h
    exact absurd h (by simp)
  · rw [if_neg he] at h
    obtain rfl := (Option.some.injEq _ _).mp h.symm
    exact ⟨rfl, by simpa using he⟩

theorem stripKeepNonempty_of_fixed {l : List Char} (h1 : pyStrip l = l) (h2 : l ≠ []) :
    stripKeepNonempty l = some l := by
  unfold stripKeepNonempty
  rw [h1, if_neg (by simpa using h2)]

set_option maxRecDepth 4000 in
theorem pyStrip_scannedSentinel : pyStrip scannedSentinel = scannedSentinel := rfl

set_option maxRecDepth 4000 in
theorem scannedSentinel_ne_nil : scannedSentinel ≠ [] := by decide

theorem extract_from_pdf_pages_eq (pages : List (Option (List Char))) :
    extract_from_pdf_pages pages =
      joinNL ((if (pages.filterMap (fun t? => t?.bind stripKeepNonempty)).isEmpty
        then [scannedSentinel]
        else pages.filterMap (fun t? => t?.bind stripKeepNonempty)).filterMap
          stripKeepNonempty) := rfl

/-- C7 (amended): the PDF extractor never returns an empty string — if
every traversed page yields only whitespace (or no) text it returns
exactly the single scanned-document sentinel line, and otherwise its
result is non-empty.  (The TXT path does not share this guarantee; see the
counterexample.) -/
theorem extract_from_pdf_never_empty (pages : List (Option (List Char))) :
    extract_from_pdf_pages pages ≠ [] ∧
    ((∀ p ∈ pages, ∀ s, p = some s → pyStrip s = []) →
      extract_from_pdf_pages pages = scannedSentinel) := by
  constructor
  · rw [extract_from_pdf_pages_eq]
    by_cases h : (pages.filterMap (fun t? => t?.bind stripKeepNonempty)).isEmpty = true
    · rw [if_pos h, List.filterMap_cons,
        stripKeepNonempty_of_fixed pyStrip_scannedSentinel scannedSentinel_ne_nil]
      exact joinNL_cons_ne_nil scannedSentinel_ne_nil
    · rw [if_neg h]
      have hne : pages.filterMap (fun t? => t?.bind stripKeepNonempty) ≠ [] := by
        intro h0
        rw [h0] at h
        simp at h
      obtain ⟨l, ls, hc⟩ := List.exists_cons_of_ne_nil hne
      have hlmem : l ∈ pages.filterMap (fun t? => t?.bind stripKeepNonempty) := by
        rw [hc]; exact List.mem_cons_self _ _
      obtain ⟨t?, -, hbind⟩ := List.mem_filterMap.mp hlmem
      obtain ⟨s, -, hsk⟩ := Option.bind_eq_some.mp hbind
      obtain ⟨hls, hlne⟩ := stripKeepNonempty_eq_some hsk
      rw [hc, List.filterMap_cons,
        stripKeepNonempty_of_fixed (by rw [hls]; exact pyStrip_idem s) hlne]
      exact joinNL_cons_ne_nil hlne
  · intro hall
    rw [extract_from_pdf_pages_eq]
    have h : pages.filterMap (fun t? => t?.bind stripKeepNonempty) = [] := by
      rw [List.filterMap_eq_nil_iff]
      intro t? ht
      cases t? with
      | none => rfl
      | some s =>
        have hs := hall _ ht s rfl
        simp [stripKeepNonempty, hs]
    rw [h]
    simp only [List.isEmpty_nil, if_true]
    rw [List.filterMap_cons,
      stripKeepNonempty_of_fixed pyStrip_scannedSentinel scannedSentinel_ne_nil]
    rfl

/-- Witness for C7: on two pages with only-whitespace and missing text the
extractor returns exactly the sentinel. -/
theorem extract_from_pdf_never_empty_witness :
    extract_from_pdf_pages [some "  ".toList, none] ≠ [] ∧
    extract_from_pdf_pages [some "  ".toList, none] = scannedSentinel :=
  ⟨(extract_from_pdf_never_empty _).1,
    (extract_from_pdf_never_empty [some "  ".toList, none]).2 (by decide)⟩

/-- C7 counterexample: a well-formed non-empty TXT document (the two bytes
`" \n"`) extracts to the empty string with no sentinel present, so the
claim's guarantee does not hold for every supported format. -/
theorem extract_from_txt_empty_no_sentinel :
    extract_from_txt [0x20, 0x0A] = Except.ok ([] : List Char) ∧
    ([] : List Char) ≠ scannedSentinel := by
  refine ⟨rfl, ?_⟩
  intro h
  exact scannedSentinel_ne_nil h.symm

/-! ## Claim C1 — back-filling of required fields -/

theorem jsonContains_obj (kvs : List (List Char × Json)) (f : List Char) :
    jsonContains (Json.obj kvs) f = some (hasKeyL kvs f) := rfl

theorem jsonSetItem_obj_of_not {kvs : List (List Char × Json)} {f : List Char}
    (h : hasKeyL kvs f = false) (v : Json) :
    jsonSetItem (Json.obj kvs) f v = some (Json.obj (kvs ++ [(f, v)])) := by
  unfold hasKeyL at h
  simp only [jsonSetItem]
  rw [if_neg (by simp [h])]

theorem backfillLoop_obj (fs : List (List Char)) (kvs : List (List Char × Json)) :
    backfillLoop fs (Json.obj kvs) = Except.ok (Json.obj (backfillObj fs kvs)) := by
  induction fs generalizing kvs with
  | nil => rfl
  | cons f fs ih =>
    cases hk : hasKeyL kvs f with
    | true =>
      rw [backfillLoop, jsonContains_obj, backfillObj, hk]
      exact ih kvs
    | false =>
      rw [backfillLoop, jsonContains_obj, backfillObj, hk, jsonSetItem_obj_of_not hk]
      exact ih _

theorem hasKeyL_append (kvs more : List (List Char × Json)) (f : List Char) :
    hasKeyL (kvs ++ more) f = (hasKeyL kvs f || hasKeyL more f) := by
  simp [hasKeyL, List.any_append]

theorem hasKeyL_backfillObj_mono {kvs : List (List Char × Json)} {g : List Char}
    (h : hasKeyL kvs g = true) (fs : List (List Char)) :
    hasKeyL (backfillObj fs kvs) g = true := by
  induction fs generalizing kvs with
  | nil => exact h
  | cons f fs ih =>
    rw [backfillObj]
    by_cases hk : hasKeyL kvs f = true
    · rw [if_pos hk]; exact ih h
    · rw [if_neg hk]
      exact ih (by rw [hasKeyL_append, h, Bool.true_or])

theorem hasKeyL_backfillObj_of_mem {f : List Char} {fs : List (List Char)}
    (h : f ∈ fs) (kvs : List (List Char × Json)) :
    hasKeyL (backfillObj fs kvs) f = true := by
  induction fs generalizing kvs with
  | nil => cases h
  | cons g fs ih =>
    rw [backfillObj]
    rcases List.mem_cons.mp h with rfl | hf
    · by_cases hk : hasKeyL kvs f = true
      · rw [if_pos hk]; exact hasKeyL_backfillObj_mono hk fs
      · rw [if_neg hk]
        apply hasKeyL_backfillObj_mono _ fs
        rw [hasKeyL_append]
        simp [hasKeyL]
    · by_cases hk : hasKeyL kvs g = true
      · rw [if_pos hk]; exact ih hf kvs
      · rw [if_neg hk]; exact ih hf _

theorem find?_eq_none_of_hasKeyL_false {kvs : List (List Char × Json)} {f : List Char}
    (h : hasKeyL kvs f = false) :
    List.find? (fun kv => kv.1 == f) kvs = none := by
  rw [List.find?_eq_none]
  intro kv hkv hp
  unfold hasKeyL at h
  have := List.any_eq_false.mp h kv hkv
  exact this hp

theorem lookupKey_append_of_none {kvs : List (List Char × Json)} {f : List Char}
    (h : hasKeyL kvs f = false) (more : List (List Char × Json)) :
    lookupKey (kvs ++ more) f = lookupKey more f := by
  simp [lookupKey, List.find?_append, find?_eq_none_of_hasKeyL_false h]

theorem lookupKey_append_of_some {kvs : List (List Char × Json)} {f : List Char} {v : Json}
    (h : lookupKey kvs f = some v) (more : List (List Char × Json)) :
    lookupKey (kvs ++ more) f = some v := by
  unfold lookupKey at h ⊢
  rw [List.find?_append]
  cases hf : List.find? (fun kv => kv.1 == f) kvs with
  | none => rw [hf] at h; simp at h
  | some kv => rw [hf] at h; exact h

theorem lookupKey_backfillObj_preserved {f : List Char} {fs : List (List Char)}
    (hne : ∀ g ∈ fs, g ≠ f) {kvs : List (List Char × Json)} {v : Json}
    (h : lookupKey kvs f = some v) :
    lookupKey (backfillObj fs kvs) f = some v := by
  induction fs generalizing kvs with
  | nil => exact h
  | cons g fs ih =>
    rw [backfillObj]
    by_cases hk : hasKeyL kvs g = true
    · rw [if_pos hk]
      exact ih (fun x hx => hne x (List.mem_cons_of_mem _ hx)) h
    · rw [if_neg hk]
      exact ih (fun x hx => hne x (List.mem_cons_of_mem _ hx)) (lookupKey_append_of_some h _)

theorem lookupKey_backfillObj_default {fs : List (List Char)} (hnd : fs.Nodup) {f : List Char}
    (hf : f ∈ fs) {kvs : List (List Char × Json)} (hk : hasKeyL kvs f = false) :
    lookupKey (backfillObj fs kvs) f = some (defaultFor f) := by
  induction fs generalizing kvs with
  | nil => cases hf
  | cons g fs ih =>
    rw [backfillObj]
    rcases List.mem_cons.mp hf with rfl | hf'
    · rw [if_neg (by simp [hk])]
      have hl : lookupKey (kvs ++ [(f, defaultFor f)]) f = some (defaultFor f) := by
        rw [lookupKey_append_of_none hk]
        simp [lookupKey]
      exact lookupKey_backfillObj_preserved
        (fun g' hg' heq => by subst heq; exact (List.nodup_cons.mp hnd).1 hg') hl
    · have hgf : g ≠ f := fun heq =>
        (List.nodup_cons.mp hnd).1 (by rw [heq]; exact hf')
      by_cases hkg : hasKeyL kvs g = true
      · rw [if_pos hkg]
        exact ih (List.nodup_cons.mp hnd).2 hf' hk
      · rw [if_neg hkg]
        apply ih (List.nodup_cons.mp hnd).2 hf'
        rw [hasKeyL_append, hk, Bool.false_or]
        simp only [hasKeyL, List.any_cons, List.any_nil, Bool.or_false]
        exact beq_eq_false_iff_ne.mpr hgf

/-- C1: for every raw model response whose cleaned text parses as a JSON
object, `parse_gemini_response` succeeds, back-filling each of the four
required top-level keys that is absent with its default (`skills` → empty
sequence, `experience`/`tech_stack` → empty mapping, `summary` → empty
string), so the returned object contains all four keys and a missing key
is never an error. -/
theorem parse_gemini_backfills (loads : List Char → Option Json) (rt : List Char)
    (kvs : List (List Char × Json))
    (h : loads (cleanResponse rt) = some (Json.obj kvs)) :
    parse_gemini_response loads rt = Except.ok (Json.obj (backfillObj requiredFields kvs)) ∧
    (∀ f ∈ requiredFields, hasKeyL (backfillObj requiredFields kvs) f = true) ∧
    (∀ f ∈ requiredFields, hasKeyL kvs f = false →
      lookupKey (backfillObj requiredFields kvs) f = some (defaultFor f)) := by
  refine ⟨?_, fun f hf => hasKeyL_backfillObj_of_mem hf kvs,
    fun f hf hk => lookupKey_backfillObj_default (by decide) hf hk⟩
  unfold parse_gemini_response
  rw [h]
  exact backfillLoop_obj _ _

/-- Witness for C1: a response parsing to the empty object is accepted and
back-filled. -/
theorem parse_gemini_backfills_witness :
    (fun _ : List Char => some (Json.obj [])) (cleanResponse []) = some (Json.obj []) ∧
    parse_gemini_response (fun _ => some (Json.obj [])) []
      = Except.ok (Json.obj (backfillObj requiredFields [])) :=
  ⟨rfl, (parse_gemini_backfills (fun _ => some (Json.obj [])) [] [] rfl).1⟩

/-! ## Claim C3 — no-brace inputs are parsed whole and fail as malformed -/

theorem firstIdxOf_eq_none {c : Char} {t : List Char} (h : c ∉ t) : firstIdxOf c t = none := by
  induction t with
  | nil => rfl
  | cons d t' ih =>
    unfold firstIdxOf
    rw [if_neg (fun heq => h (by rw [← heq]; exact List.mem_cons_self _ _)),
      ih (fun hm => h (List.mem_cons_of_mem _ hm))]
    rfl

theorem sliceBraces_eq_self {t : List Char} (h : ¬('{' ∈ t ∧ '}' ∈ t)) :
    sliceBraces t = t := by
  unfold sliceBraces
  by_cases h1 : '{' ∈ t
  · have h2 : '}' ∉ t := fun h2 => h ⟨h1, h2⟩
    have hl : lastIdxOf '}' t = none := by
      unfold lastIdxOf
      rw [firstIdxOf_eq_none (by simpa using h2)]
    rw [hl]
    cases firstIdxOf '{' t <;> rfl
  · rw [firstIdxOf_eq_none h1]

theorem mem_fenceStrip {c : Char} {t : List Char} (h : c ∈ fenceStrip t) : c ∈ t := by
  simp only [fenceStrip] at h
  by_cases h7 : startsWithL "```json".toList t = true
  · rw [if_pos h7] at h
    by_cases he : endsWithL "```".toList (t.drop 7) = true
    · rw [if_pos he] at h
      exact List.mem_of_mem_drop (List.mem_of_mem_take h)
    · rw [if_neg he] at h
      exact List.mem_of_mem_drop h
  · rw [if_neg h7] at h
    by_cases h3 : startsWithL "```".toList t = true
    · rw [if_pos h3] at h
      by_cases he : endsWithL "```".toList (t.drop 3) = true
      · rw [if_pos he] at h
        exact List.mem_of_mem_drop (List.mem_of_mem_take h)
      · rw [if_neg he] at h
        exact List.mem_of_mem_drop h
    · rw [if_neg h3] at h
      by_cases he : endsWithL "```".toList t = true
      · rw [if_pos he] at h
        exact List.mem_of_mem_take h
      · rw [if_neg he] at h
        exact h

theorem mem_preSliceText {c : Char} {rt : List Char} (h : c ∈ preSliceText rt) : c ∈ rt := by
  unfold preSliceText at h
  exact mem_pyStrip (mem_fenceStrip (mem_pyStrip h))

/-- C3: on a response with no `{`/`}` pair the parser does not slice — the
text handed to `json.loads` is exactly the whole trimmed (fence-stripped)
text — and it fails with `MalformedResponse` carrying the bounded
500-character preview of the raw response precisely when that parse
fails; when the parse succeeds the result is handed to the field
validation loop. -/
theorem parse_gemini_no_braces (loads : List Char → Option Json) (rt : List Char)
    (h : ¬('{' ∈ rt ∧ '}' ∈ rt)) :
    cleanResponse rt = preSliceText rt ∧
    (loads (preSliceText rt) = none →
      parse_gemini_response loads rt = Except.error (GemErr.malformed (rt.take 500))) ∧
    (∀ j, loads (preSliceText rt) = some j →
      parse_gemini_response loads rt = backfillLoop requiredFields j) := by
  have hcl : cleanResponse rt = preSliceText rt := by
    unfold cleanResponse
    apply sliceBraces_eq_self
    rintro ⟨h1, h2⟩
    exact h ⟨mem_preSliceText h1, mem_preSliceText h2⟩
  refine ⟨hcl, fun hn => ?_, fun j hj => ?_⟩
  · unfold parse_gemini_response
    rw [hcl, hn]
  · unfold parse_gemini_response
    rw [hcl, hj]

/-- Witness for C3: the garbage input `"hello"` has no braces, and with a
failing parse the result is `MalformedResponse` with the preview. -/
theorem parse_gemini_no_braces_witness :
    ¬('{' ∈ "hello".toList ∧ '}' ∈ "hello".toList) ∧
    parse_gemini_response (fun _ => none) "hello".toList
      = Except.error (GemErr.malformed ("hello".toList.take 500)) :=
  ⟨by decide, (parse_gemini_no_braces (fun _ => none) "hello".toList (by decide)).2.1 rfl⟩

/-! ## Claim C2 — fenced and prose-wrapped responses parse like bare JSON -/

theorem firstIdxOf_head {c : Char} {s : List Char} (h : s.head? = some c) :
    firstIdxOf c s = some 0 := by
  cases s with
  | nil => simp at h
  | cons d t =>
    rw [List.head?_cons] at h
    obtain rfl := Option.some.inj h
    unfold firstIdxOf
    rw [if_pos rfl]

theorem firstIdxOf_append_some {c : Char} {A s : List Char} {k : Nat}
    (hA : c ∉ A) (hs : firstIdxOf c s = some k) :
    firstIdxOf c (A ++ s) = some (A.length + k) := by
  induction A with
  | nil => simpa using hs
  | cons a A' ih =>
    have ha : ¬(a = c) := fun heq => hA (by rw [← heq]; exact List.mem_cons_self _ _)
    rw [List.cons_append]
    unfold firstIdxOf
    rw [if_neg ha, ih (fun hm => hA (List.mem_cons_of_mem _ hm))]
    simp only [Option.map_some', Option.some.injEq, List.length_cons]
    omega

theorem sliceBraces_append_left {A s : List Char} (hA : '{' ∉ A) (hs0 : s ≠ [])
    (hh : s.head? = some '{') (hl : s.getLast? = some '}') :
    sliceBraces (A ++ s) = s := by
  have hs1 : 0 < s.length := List.length_pos.mpr hs0
  have hf : firstIdxOf '{' (A ++ s) = some (A.length + 0) :=
    firstIdxOf_append_some hA (firstIdxOf_head hh)
  rw [Nat.add_zero] at hf
  have hrev : firstIdxOf '}' ((A ++ s).reverse) = some 0 := by
    rw [List.reverse_append]
    apply firstIdxOf_head
    rw [List.head?_append, List.head?_reverse, hl]
    rfl
  have hli : lastIdxOf '}' (A ++ s) = some (A.length + s.length - 1) := by
    unfold lastIdxOf
    rw [hrev]
    simp [List.length_append]
  unfold sliceBraces
  rw [hf, hli]
  show ((A ++ s).drop A.length).take (A.length + s.length - 1 + 1 - A.length) = s
  rw [List.drop_left]
  have harith : A.length + s.length - 1 + 1 - A.length = s.length := by omega
  rw [harith, List.take_length]

theorem cleanResponse_bare {s : List Char} (hs0 : s ≠ [])
    (hh : s.head? = some '{') (hl : s.getLast? = some '}') :
    cleanResponse s = s := by
  obtain ⟨c0, s', rfl⟩ : ∃ c0 s', s = c0 :: s' := by
    cases s with
    | nil => exact absurd rfl hs0
    | cons c0 s' => exact ⟨c0, s', rfl⟩
  rw [List.head?_cons] at hh
  obtain rfl := Option.some.inj hh
  have hstrip : pyStrip ('{' :: s') = '{' :: s' :=
    pyStrip_eq_self
      (fun c hc => by
        rw [List.head?_cons] at hc
        obtain rfl := Option.some.inj hc
        decide)
      (fun c hc => by
        rw [hl] at hc
        obtain rfl := Option.some.inj hc
        decide)
  obtain ⟨r, hre⟩ : ∃ r, ('{' :: s').reverse = '}' :: r := by
    cases hrev : ('{' :: s').reverse with
    | nil => simp at hrev
    | cons a r =>
      have := List.head?_reverse ('{' :: s')
      rw [hrev, hl] at this
      obtain rfl := Option.some.inj this.symm
      exact ⟨r, rfl⟩
  have hfence : fenceStrip ('{' :: s') = '{' :: s' := by
    have hsw7 : startsWithL "```json".toList ('{' :: s') = false := rfl
    have hsw3 : startsWithL "```".toList ('{' :: s') = false := rfl
    have hew : endsWithL "```".toList ('{' :: s') = false := by
      unfold endsWithL
      rw [hre]
      rfl
    simp only [fenceStrip, hsw7, hsw3, Bool.false_eq_true, if_false]
    rw [hew]
    simp only [Bool.false_eq_true, if_false]
  unfold cleanResponse preSliceText
  rw [hstrip, hfence, hstrip]
  have := sliceBraces_append_left (A := []) (s := '{' :: s')
    (by simp) hs0 (by rw [List.head?_cons]) hl
  simpa using this

theorem endsWith_fence_tail (X : List Char) :
    endsWithL "```".toList (X ++ "\n```".toList) = true := by
  unfold endsWithL
  rw [show ("\n```".toList : List Char) = ['\n', '`', '`', '`'] from rfl, List.reverse_append]
  rfl

theorem take_fence_tail (Y : List Char) :
    (Y ++ "\n```".toList).take ((Y ++ "\n```".toList).length - 3) = Y ++ ['\n'] := by
  have he : Y ++ "\n```".toList = (Y ++ ['\n']) ++ ['`', '`', '`'] := by
    rw [show ("\n```".toList : List Char) = ['\n', '`', '`', '`'] from rfl]
    simp
  rw [he]
  have hlen : ((Y ++ ['\n']) ++ ['`', '`', '`']).length - 3 = (Y ++ ['\n']).length := by
    simp
  rw [hlen, List.take_left]

theorem fenceTail_step {s : List Char} (B : List Char) :
    (if endsWithL "```".toList (B ++ (s ++ "\n```".toList))
      then (B ++ (s ++ "\n```".toList)).take ((B ++ (s ++ "\n```".toList)).length - 3)
      else B ++ (s ++ "\n```".toList)) = B ++ (s ++ ['\n']) := by
  rw [show B ++ (s ++ "\n```".toList) = (B ++ s) ++ "\n```".toList by simp]
  rw [if_pos (endsWith_fence_tail (B ++ s)), take_fence_tail]
  simp

theorem pyStrip_brace_mid {s : List Char} (A : List Char)
    (hh : s.head? = some '{') (hl : s.getLast? = some '}') :
    pyStrip (A ++ (s ++ ['\n'])) = A.dropWhile isSpacePy ++ s := by
  have hhead : (s ++ ['\n']).head? = some '{' := by
    rw [List.head?_append, hh]; rfl
  unfold pyStrip
  rw [dropWhile_ws_append
    (fun c hc => by rw [hhead] at hc; obtain rfl := Option.some.inj hc; decide)
    (by simp)]
  rw [show A.dropWhile isSpacePy ++ (s ++ ['\n'])
      = (A.dropWhile isSpacePy ++ s) ++ ['\n'] by simp]
  rw [dropTrailingWs_append_ws (by decide)]
  apply dropTrailingWs_eq_self
  intro c hc
  have hlast : (A.dropWhile isSpacePy ++ s).getLast? = some '}' := by
    rw [List.getLast?_append, hl]; rfl
  rw [hlast] at hc
  obtain rfl := Option.some.inj hc
  decide

theorem cleanResponse_wrapped {prose s : List Char} (hp : '{' ∉ prose) (hs0 : s ≠ [])
    (hh : s.head? = some '{') (hl : s.getLast? = some '}') :
    cleanResponse (prose ++ "```json\n".toList ++ s ++ "\n```".toList) = s := by
  have hne_sTL : s ++ "\n```".toList ≠ [] := by simp
  have hhead_sTL : (s ++ "\n```".toList).head? = some '{' := by
    rw [List.head?_append, hh]; rfl
  have hP : List.dropWhile isSpacePy (prose ++ "```json\n".toList)
      = prose.dropWhile isSpacePy ++ "```json\n".toList :=
    dropWhile_ws_append
      (fun c hc => by
        rw [show ("```json\n".toList : List Char).head? = some '`' from rfl] at hc
        obtain rfl := Option.some.inj hc
        decide)
      (by decide)
  have hstrip1 : pyStrip ((prose ++ "```json\n".toList) ++ (s ++ "\n```".toList))
      = (prose.dropWhile isSpacePy ++ "```json\n".toList) ++ (s ++ "\n```".toList) := by
    unfold pyStrip
    rw [dropWhile_ws_append
      (fun c hc => by rw [hhead_sTL] at hc; obtain rfl := Option.some.inj hc; decide)
      hne_sTL, hP]
    apply dropTrailingWs_eq_self
    intro c hc
    have hg : ((prose.dropWhile isSpacePy ++ "```json\n".toList)
        ++ (s ++ "\n```".toList)).getLast? = some '`' := by
      rw [List.getLast?_append, List.getLast?_append,
        show ("\n```".toList : List Char).getLast? = some '`' from rfl]
      rfl
    rw [hg] at hc
    obtain rfl := Option.some.inj hc
    decide
  have hlenPF : 7 ≤ (prose.dropWhile isSpacePy ++ "```json\n".toList).length := by
    rw [List.length_append, show ("```json\n".toList : List Char).length = 8 from rfl]
    omega
  have hmemB : ∀ B : List Char,
      (∀ c ∈ B, c ∈ prose.dropWhile isSpacePy ++ "```json\n".toList) →
      '{' ∉ B.dropWhile isSpacePy := by
    intro B hsub hmem
    have h1 := hsub _ ((List.dropWhile_sublist _).mem hmem)
    rcases List.mem_append.mp h1 with h2 | h2
    · exact hp ((List.dropWhile_sublist _).mem h2)
    · exact (by decide : '{' ∉ ("```json\n".toList : List Char)) h2
  have hfinal : ∀ B : List Char,
      (∀ c ∈ B, c ∈ prose.dropWhile isSpacePy ++ "```json\n".toList) →
      sliceBraces (pyStrip (B ++ (s ++ ['\n']))) = s := by
    intro B hsub
    rw [pyStrip_brace_mid B hh hl]
    exact sliceBraces_append_left (hmemB B hsub) hs0 hh hl
  unfold cleanResponse preSliceText
  rw [show prose ++ "```json\n".toList ++ s ++ "\n```".toList
      = (prose ++ "```json\n".toList) ++ (s ++ "\n```".toList) by simp]
  rw [hstrip1]
  simp only [fenceStrip]
  by_cases hw7 : startsWithL "```json".toList
      ((prose.dropWhile isSpacePy ++ "```json\n".toList) ++ (s ++ "\n```".toList)) = true
  · rw [if_pos hw7, List.drop_append_of_le_length (by omega), fenceTail_step _]
    exact hfinal _ (fun c hc => List.mem_of_mem_drop hc)
  · rw [if_neg hw7]
    by_cases hw3 : startsWithL "```".toList
        ((prose.dropWhile isSpacePy ++ "```json\n".toList) ++ (s ++ "\n```".toList)) = true
    · rw [if_pos hw3, List.drop_append_of_le_length (by omega), fenceTail_step _]
      exact hfinal _ (fun c hc => List.mem_of_mem_drop hc)
    · rw [if_neg hw3, fenceTail_step _]
      exact hfinal _ (fun c hc => hc)

/-- C2: a valid JSON object body wrapped in ```` ```json ```` fences with
arbitrary brace-free leading prose (e.g. `"Sure! ```json\n{...}\n```"`)
cleans to exactly the bare body — the slice from the first `{` to the
last `}` discards the noise — so the parser returns the same structure as
on the bare body. -/
theorem parse_gemini_fenced_eq_bare (loads : List Char → Option Json)
    (prose s : List Char) (j : Json) (hp : '{' ∉ prose) (hs0 : s ≠ [])
    (hh : s.head? = some '{') (hl : s.getLast? = some '}')
    (hj : loads s = some j) :
    cleanResponse (prose ++ "```json\n".toList ++ s ++ "\n```".toList) = cleanResponse s ∧
    parse_gemini_response loads (prose ++ "```json\n".toList ++ s ++ "\n```".toList)
      = parse_gemini_response loads s := by
  have h1 := cleanResponse_wrapped hp hs0 hh hl
  have h2 := cleanResponse_bare hs0 hh hl
  refine ⟨h1.trans h2.symm, ?_⟩
  unfold parse_gemini_response
  rw [h1, h2, hj]

/-- Witness for C2: the spec's example `"Sure! ```json\n{}\n```"` parses
exactly like the bare `"{}"`. -/
theorem parse_gemini_fenced_eq_bare_witness :
    '{' ∉ "Sure! ".toList ∧
    parse_gemini_response (fun _ => some (Json.obj []))
        ("Sure! ".toList ++ "```json\n".toList ++ "{}".toList ++ "\n```".toList)
      = parse_gemini_response (fun _ => some (Json.obj [])) "{}".toList :=
  ⟨by decide,
    (parse_gemini_fenced_eq_bare (fun _ => some (Json.obj [])) "Sure! ".toList "{}".toList
      (Json.obj []) (by decide) (by decide) (by decide) (by decide) rfl).2⟩

/-! ## Claim C9 — fork policy and top-20 ordering in `summarize_data` -/

theorem keptRepos_middle {r : Repo} (hf : r.fork = true) (hs : r.stargazers_count = 0)
    (rs₁ rs₂ : List Repo) :
    keptRepos (rs₁ ++ r :: rs₂) = keptRepos (rs₁ ++ rs₂) := by
  have hr : repoKept r = false := by
    unfold repoKept
    rw [hf, hs]
    rfl
  unfold keptRepos
  simp [List.filter_append, List.filter_cons, hr]

/-- C9: a forked repository with zero stars is excluded from every
aggregate statistic of `summarize_data` — language counts, star and fork
totals, topics, and the per-repository summaries — yet still counts
toward `total_repositories`; and the returned `repositories` list is
capped at 20 entries, sorted by stars descending. -/
theorem summarize_data_fork_policy (u : GitHubUser) (rs₁ rs₂ : List Repo) (r : Repo)
    (hf : r.fork = true) (hs : r.stargazers_count = 0) :
    ((summarize_data u (rs₁ ++ r :: rs₂)).map (fun S => S.stats.languages_used)
      = (summarize_data u (rs₁ ++ rs₂)).map (fun S => S.stats.languages_used)) ∧
    ((summarize_data u (rs₁ ++ r :: rs₂)).map (fun S => S.stats.total_stars_earned)
      = (summarize_data u (rs₁ ++ rs₂)).map (fun S => S.stats.total_stars_earned)) ∧
    ((summarize_data u (rs₁ ++ r :: rs₂)).map (fun S => S.stats.total_forks)
      = (summarize_data u (rs₁ ++ rs₂)).map (fun S => S.stats.total_forks)) ∧
    ((summarize_data u (rs₁ ++ r :: rs₂)).map (fun S => S.stats.topics_explored)
      = (summarize_data u (rs₁ ++ rs₂)).map (fun S => S.stats.topics_explored)) ∧
    ((summarize_data u (rs₁ ++ r :: rs₂)).map (fun S => S.repositories)
      = (summarize_data u (rs₁ ++ rs₂)).map (fun S => S.repositories)) ∧
    ((summarize_data u (rs₁ ++ r :: rs₂)).map (fun S => S.stats.total_repositories)
      = (summarize_data u (rs₁ ++ rs₂)).map (fun S => S.stats.total_repositories + 1)) ∧
    (∀ S, summarize_data u (rs₁ ++ r :: rs₂) = some S →
      S.repositories.length ≤ 20 ∧ List.Pairwise starsDesc S.repositories) := by
  have hk := keptRepos_middle hf hs rs₁ rs₂
  cases hy : created_year u with
  | none =>
    unfold summarize_data
    rw [hy]
    simp
  | some year =>
    unfold summarize_data
    rw [hy]
    refine ⟨?_, ?_, ?_, ?_, ?_, ?_, ?_⟩
    · simp only [Option.map_some']
      rw [hk]
    · simp only [Option.map_some']
      rw [hk]
    · simp only [Option.map_some']
      rw [hk]
    · simp only [Option.map_some']
      rw [hk]
    · simp only [Option.map_some']
      rw [hk]
    · simp only [Option.map_some', Option.some.injEq, List.length_append, List.length_cons]
      omega
    · intro S hS
      obtain rfl := Option.some.inj hS
      constructor
      · show ((List.insertionSort starsDesc
          ((keptRepos (rs₁ ++ r :: rs₂)).map mkRepoSummary)).take 20).length ≤ 20
        rw [List.length_take]
        exact min_le_left _ _
      · have hsorted : List.Pairwise starsDesc (List.insertionSort starsDesc
            ((keptRepos (rs₁ ++ r :: rs₂)).map mkRepoSummary)) :=
          List.sorted_insertionSort _ _
        exact List.Pairwise.sublist (List.take_sublist _ _) hsorted

/-- Witness for C9: a fork with zero stars is counted in
`total_repositories` but in no aggregate. -/
theorem summarize_data_fork_policy_witness :
    (⟨"f".toList, none, none, 0, 0, [], [], [], 0, true⟩ : Repo).fork = true ∧
    (⟨"f".toList, none, none, 0, 0, [], [], [], 0, true⟩ : Repo).stargazers_count = 0 ∧
    ((summarize_data ⟨none, none, none, none, none, none, none, none, none, none, none, none, none⟩
        ([] ++ (⟨"f".toList, none, none, 0, 0, [], [], [], 0, true⟩ : Repo) :: [])).map
        (fun S => S.stats.total_repositories)
      = (summarize_data ⟨none, none, none, none, none, none, none, none, none, none, none, none, none⟩
        ([] ++ [])).map (fun S => S.stats.total_repositories + 1)) :=
  ⟨rfl, rfl,
    (summarize_data_fork_policy _ [] [] _ rfl rfl).2.2.2.2.2.1⟩

/-! ## Claims C5, C6 — preprocessing: normal-form predicates -/

theorem bAnd_mp {a b : Bool} (h : (a && b) = true) : a = true ∧ b = true := by
  rw [Bool.and_eq_true] at h
  exact h

theorem bAnd_mpr {a b : Bool} (h1 : a = true) (h2 : b = true) : (a && b) = true := by
  rw [Bool.and_eq_true]
  exact ⟨h1, h2⟩

theorem noDoubleSpace_cons₂ (a b : Char) (cs : List Char) :
    noDoubleSpace (a :: b :: cs) = (!(a = ' ' && b = ' ') && noDoubleSpace (b :: cs)) := rfl

theorem noWsAfterNL_cons₂ (a b : Char) (cs : List Char) :
    noWsAfterNL (a :: b :: cs)
      = (!(a = '\n' && isSpacePy b && !(b = '\n')) && noWsAfterNL (b :: cs)) := rfl

theorem noWsBeforeNL_cons₂ (a b : Char) (cs : List Char) :
    noWsBeforeNL (a :: b :: cs)
      = (!(isSpacePy a && !(a = '\n') && b = '\n') && noWsBeforeNL (b :: cs)) := rfl

theorem noTripleNL_cons₃ (a b c : Char) (cs : List Char) :
    noTripleNL (a :: b :: c :: cs)
      = (!(a = '\n' && b = '\n' && c = '\n') && noTripleNL (b :: c :: cs)) := rfl

theorem noWsGap_cons (c : Char) (cs : List Char) :
    noWsGap (c :: cs)
      = ((if c = '\n' then !(wsRunHasNL cs && !(cs.head? = some '\n')) else true)
        && noWsGap cs) := rfl

theorem noDoubleSpace_tail {a : Char} {t : List Char}
    (h : noDoubleSpace (a :: t) = true) : noDoubleSpace t = true := by
  cases t with
  | nil => rfl
  | cons b cs => exact (bAnd_mp h).2

theorem noWsAfterNL_tail {a : Char} {t : List Char}
    (h : noWsAfterNL (a :: t) = true) : noWsAfterNL t = true := by
  cases t with
  | nil => rfl
  | cons b cs => exact (bAnd_mp h).2

theorem noWsBeforeNL_tail {a : Char} {t : List Char}
    (h : noWsBeforeNL (a :: t) = true) : noWsBeforeNL t = true := by
  cases t with
  | nil => rfl
  | cons b cs => exact (bAnd_mp h).2

theorem noTripleNL_tail {a : Char} {t : List Char}
    (h : noTripleNL (a :: t) = true) : noTripleNL t = true := by
  cases t with
  | nil => rfl
  | cons b cs =>
    cases cs with
    | nil => rfl
    | cons c cs' => exact (bAnd_mp h).2

theorem noWsGap_tail {a : Char} {t : List Char}
    (h : noWsGap (a :: t) = true) : noWsGap t = true :=
  (bAnd_mp h).2

theorem noDoubleSpace_suffix {xs t : List Char}
    (h : noDoubleSpace (xs ++ t) = true) : noDoubleSpace t = true := by
  induction xs with
  | nil => exact h
  | cons a xs' ih => exact ih (noDoubleSpace_tail h)

theorem noWsAfterNL_suffix {xs t : List Char}
    (h : noWsAfterNL (xs ++ t) = true) : noWsAfterNL t = true := by
  induction xs with
  | nil => exact h
  | cons a xs' ih => exact ih (noWsAfterNL_tail h)

theorem noWsBeforeNL_suffix {xs t : List Char}
    (h : noWsBeforeNL (xs ++ t) = true) : noWsBeforeNL t = true := by
  induction xs with
  | nil => exact h
  | cons a xs' ih => exact ih (noWsBeforeNL_tail h)

theorem noTripleNL_suffix {xs t : List Char}
    (h : noTripleNL (xs ++ t) = true) : noTripleNL t = true := by
  induction xs with
  | nil => exact h
  | cons a xs' ih => exact ih (noTripleNL_tail h)

theorem noDoubleSpace_append_left {t xs : List Char}
    (h : noDoubleSpace (t ++ xs) = true) : noDoubleSpace t = true := by
  induction t with
  | nil => rfl
  | cons a t' ih =>
    cases t' with
    | nil => rfl
    | cons b ts =>
      have h' : noDoubleSpace (a :: b :: (ts ++ xs)) = true := h
      rw [noDoubleSpace_cons₂] at h'
      obtain ⟨h1, h2⟩ := bAnd_mp h'
      rw [noDoubleSpace_cons₂]
      exact bAnd_mpr h1 (ih h2)

theorem noWsAfterNL_append_left {t xs : List Char}
    (h : noWsAfterNL (t ++ xs) = true) : noWsAfterNL t = true := by
  induction t with
  | nil => rfl
  | cons a t' ih =>
    cases t' with
    | nil => rfl
    | cons b ts =>
      have h' : noWsAfterNL (a :: b :: (ts ++ xs)) = true := h
      rw [noWsAfterNL_cons₂] at h'
      obtain ⟨h1, h2⟩ := bAnd_mp h'
      rw [noWsAfterNL_cons₂]
      exact bAnd_mpr h1 (ih h2)

theorem noWsBeforeNL_append_left {t xs : List Char}
    (h : noWsBeforeNL (t ++ xs) = true) : noWsBeforeNL t = true := by
  induction t with
  | nil => rfl
  | cons a t' ih =>
    cases t' with
    | nil => rfl
    | cons b ts =>
      have h' : noWsBeforeNL (a :: b :: (ts ++ xs)) = true := h
      rw [noWsBeforeNL_cons₂] at h'
      obtain ⟨h1, h2⟩ := bAnd_mp h'
      rw [noWsBeforeNL_cons₂]
      exact bAnd_mpr h1 (ih h2)

theorem noTripleNL_append_left {t xs : List Char}
    (h : noTripleNL (t ++ xs) = true) : noTripleNL t = true := by
  induction t with
  | nil => rfl
  | cons a t' ih =>
    cases t' with
    | nil => rfl
    | cons b ts =>
      cases ts with
      | nil => rfl
      | cons c ts' =>
        have h' : noTripleNL (a :: b :: c :: (ts' ++ xs)) = true := h
        rw [noTripleNL_cons₃] at h'
        obtain ⟨h1, h2⟩ := bAnd_mp h'
        rw [noTripleNL_cons₃]
        exact bAnd_mpr h1 (ih h2)

theorem noDoubleSpace_pyStrip {s : List Char} (h : noDoubleSpace s = true) :
    noDoubleSpace (pyStrip s) = true := by
  have h1 : noDoubleSpace (s.dropWhile isSpacePy) = true :=
    noDoubleSpace_suffix (by rw [List.takeWhile_append_dropWhile]; exact h)
  obtain ⟨r, hr⟩ := dropTrailingWs_prefix (s.dropWhile isSpacePy)
  apply @noDoubleSpace_append_left _ r
  show noDoubleSpace (dropTrailingWs (List.dropWhile isSpacePy s) ++ r) = true
  rw [← hr]
  exact h1

theorem noWsAfterNL_pyStrip {s : List Char} (h : noWsAfterNL s = true) :
    noWsAfterNL (pyStrip s) = true := by
  have h1 : noWsAfterNL (s.dropWhile isSpacePy) = true :=
    noWsAfterNL_suffix (by rw [List.takeWhile_append_dropWhile]; exact h)
  obtain ⟨r, hr⟩ := dropTrailingWs_prefix (s.dropWhile isSpacePy)
  apply @noWsAfterNL_append_left _ r
  show noWsAfterNL (dropTrailingWs (List.dropWhile isSpacePy s) ++ r) = true
  rw [← hr]
  exact h1

theorem noWsBeforeNL_pyStrip {s : List Char} (h : noWsBeforeNL s = true) :
    noWsBeforeNL (pyStrip s) = true := by
  have h1 : noWsBeforeNL (s.dropWhile isSpacePy) = true :=
    noWsBeforeNL_suffix (by rw [List.takeWhile_append_dropWhile]; exact h)
  obtain ⟨r, hr⟩ := dropTrailingWs_prefix (s.dropWhile isSpacePy)
  apply @noWsBeforeNL_append_left _ r
  show noWsBeforeNL (dropTrailingWs (List.dropWhile isSpacePy s) ++ r) = true
  rw [← hr]
  exact h1

theorem noTripleNL_pyStrip {s : List Char} (h : noTripleNL s = true) :
    noTripleNL (pyStrip s) = true := by
  have h1 : noTripleNL (s.dropWhile isSpacePy) = true :=
    noTripleNL_suffix (by rw [List.takeWhile_append_dropWhile]; exact h)
  obtain ⟨r, hr⟩ := dropTrailingWs_prefix (s.dropWhile isSpacePy)
  apply @noTripleNL_append_left _ r
  show noTripleNL (dropTrailingWs (List.dropWhile isSpacePy s) ++ r) = true
  rw [← hr]
  exact h1

theorem bNot_true {b : Bool} (h : (!b) = true) : b = false := by
  cases b with
  | false => rfl
  | true => simp at h

theorem collapseSpaces_cons₂ (c d : Char) (cs : List Char) :
    collapseSpaces (c :: d :: cs)
      = if c = ' ' && d = ' ' then collapseSpaces (d :: cs)
        else c :: collapseSpaces (d :: cs) := rfl

theorem collapseSpaces_eq_self {s : List Char} (h : noDoubleSpace s = true) :
    collapseSpaces s = s := by
  induction s with
  | nil => rfl
  | cons c cs ih =>
    cases cs with
    | nil => rfl
    | cons d cs' =>
      rw [noDoubleSpace_cons₂] at h
      obtain ⟨h1, h2⟩ := bAnd_mp h
      rw [collapseSpaces_cons₂, if_neg (by simp [bNot_true h1]), ih h2]

theorem collapseSpaces_head (d : Char) (cs : List Char) :
    (collapseSpaces (d :: cs)).head? = some d := by
  induction cs generalizing d with
  | nil => rfl
  | cons e cs' ih =>
    by_cases h : (d = ' ' && e = ' ') = true
    · obtain ⟨h1, h2⟩ := bAnd_mp h
      rw [collapseSpaces_cons₂, if_pos h, ih e,
        of_decide_eq_true h1, of_decide_eq_true h2]
    · rw [collapseSpaces_cons₂, if_neg h]
      rfl

theorem noDoubleSpace_collapseSpaces (s : List Char) :
    noDoubleSpace (collapseSpaces s) = true := by
  induction s with
  | nil => rfl
  | cons c cs ih =>
    cases cs with
    | nil => rfl
    | cons d cs' =>
      by_cases h : (c = ' ' && d = ' ') = true
      · rw [collapseSpaces_cons₂, if_pos h]
        exact ih
      · rw [collapseSpaces_cons₂, if_neg h]
        cases hX : collapseSpaces (d :: cs') with
        | nil => rfl
        | cons x xs =>
          have hh := collapseSpaces_head d cs'
          rw [hX, List.head?_cons] at hh
          have hxd : x = d := Option.some.inj hh
          rw [noDoubleSpace_cons₂]
          apply bAnd_mpr
          · rw [hxd]
            have hf : (decide (c = ' ') && decide (d = ' ')) = false := by
              cases hcd : (decide (c = ' ') && decide (d = ' ')) with
              | false => rfl
              | true => exact absurd hcd h
            rw [hf]
            rfl
          · have := ih
            rw [hX] at this
            exact this

theorem subBlankF_head (f : Nat) (s : List Char) : (subBlankF f s).head? = s.head? := by
  cases f with
  | zero => rfl
  | succ f' =>
    cases s with
    | nil => rfl
    | cons c cs =>
      by_cases h : (c = '\n' && wsRunHasNL cs) = true
      · unfold subBlankF
        rw [if_pos h]
        obtain ⟨h1, -⟩ := bAnd_mp h
        rw [List.head?_cons, List.head?_cons, of_decide_eq_true h1]
      · unfold subBlankF
        rw [if_neg h]
        rfl

theorem afterLastNL_suffix (cs : List Char) : ∃ a, cs = a ++ afterLastNL cs := by
  induction cs with
  | nil => exact ⟨[], rfl⟩
  | cons c cs' ih =>
    unfold afterLastNL
    by_cases h1 : isSpacePy c = true
    · rw [if_pos h1]
      by_cases h2 : (c = '\n' && !wsRunHasNL cs') = true
      · rw [if_pos h2]
        exact ⟨[c], rfl⟩
      · rw [if_neg h2]
        obtain ⟨a, ha⟩ := ih
        exact ⟨c :: a, by rw [List.cons_append, ← ha]⟩
    · rw [if_neg h1]
      exact ⟨[], rfl⟩

theorem afterLastNL_length_le (cs : List Char) : (afterLastNL cs).length ≤ cs.length := by
  obtain ⟨a, ha⟩ := afterLastNL_suffix cs
  conv_rhs => rw [ha]
  rw [List.length_append]
  omega

theorem wsRunHasNL_cons_nl (t : List Char) : wsRunHasNL ('\n' :: t) = true := rfl

theorem wsRunHasNL_cons_nonws {c : Char} {t : List Char} (h : isSpacePy c = false) :
    wsRunHasNL (c :: t) = false := by
  unfold wsRunHasNL
  rw [List.takeWhile_cons, if_neg (by simp [h])]
  rfl

theorem wsRunHasNL_cons_ws {c : Char} {t : List Char} (h1 : isSpacePy c = true)
    (h2 : ¬(c = '\n')) : wsRunHasNL (c :: t) = wsRunHasNL t := by
  unfold wsRunHasNL
  rw [List.takeWhile_cons, if_pos (by simp [h1]), List.contains_cons,
    beq_eq_false_iff_ne.mpr (fun he => h2 he.symm), Bool.false_or]

theorem wsRunHasNL_ws_prefix {w r : List Char} (hw : ∀ c ∈ w, isSpacePy c = true) :
    wsRunHasNL (w ++ '\n' :: r) = true := by
  induction w with
  | nil => exact wsRunHasNL_cons_nl r
  | cons c w' ih =>
    by_cases hc : c = '\n'
    · subst hc
      exact wsRunHasNL_cons_nl _
    · rw [List.cons_append, wsRunHasNL_cons_ws (hw c (List.mem_cons_self _ _)) hc]
      exact ih (fun c' hc' => hw c' (List.mem_cons_of_mem _ hc'))

theorem wsRunHasNL_afterLastNL (cs : List Char) : wsRunHasNL (afterLastNL cs) = false := by
  induction cs with
  | nil => rfl
  | cons c cs' ih =>
    unfold afterLastNL
    by_cases h1 : isSpacePy c = true
    · rw [if_pos h1]
      by_cases h2 : (c = '\n' && !wsRunHasNL cs') = true
      · rw [if_pos h2]
        exact bNot_true (bAnd_mp h2).2
      · rw [if_neg h2]
        exact ih
    · rw [if_neg h1]
      exact wsRunHasNL_cons_nonws (by simpa using h1)

theorem afterLastNL_head_ne_nl (cs : List Char) : (afterLastNL cs).head? ≠ some '\n' := by
  induction cs with
  | nil => simp [afterLastNL]
  | cons c cs' ih =>
    unfold afterLastNL
    by_cases h1 : isSpacePy c = true
    · rw [if_pos h1]
      by_cases h2 : (c = '\n' && !wsRunHasNL cs') = true
      · rw [if_pos h2]
        have h2b : wsRunHasNL cs' = false := bNot_true (bAnd_mp h2).2
        intro hh
        cases cs' with
        | nil => simp at hh
        | cons e cs'' =>
          rw [List.head?_cons] at hh
          obtain rfl := Option.some.inj hh
          rw [wsRunHasNL_cons_nl] at h2b
          simp at h2b
      · rw [if_neg h2]
        exact ih
    · rw [if_neg h1]
      rw [List.head?_cons]
      intro hh
      obtain rfl := Option.some.inj hh
      exact h1 rfl

theorem subBlankF_eq_self : ∀ (f : Nat) (s : List Char), noWsAfterNL s = true →
    noTripleNL s = true → s.length ≤ f → subBlankF f s = s := by
  intro f
  induction f with
  | zero =>
    intro s _ _ hlen
    cases s with
    | nil => rfl
    | cons c cs => simp at hlen
  | succ f' ih =>
    intro s h2 h3 hlen
    cases s with
    | nil => rfl
    | cons c cs =>
      by_cases hm : (c = '\n' && wsRunHasNL cs) = true
      · obtain ⟨hc, hw⟩ := bAnd_mp hm
        obtain rfl : c = '\n' := of_decide_eq_true hc
        cases cs with
        | nil => exact absurd hw (by decide)
        | cons d cs' =>
          have hdws : isSpacePy d = true := by
            by_contra hnd
            rw [wsRunHasNL_cons_nonws (by simpa using hnd)] at hw
            simp at hw
          have hd : d = '\n' := by
            rw [noWsAfterNL_cons₂] at h2
            obtain ⟨hpair, -⟩ := bAnd_mp h2
            by_contra hne
            have hinner : (decide ('\n' = '\n') && isSpacePy d && !(decide (d = '\n'))) = true := by
              rw [hdws, decide_eq_false hne]
              rfl
            rw [hinner] at hpair
            simp at hpair
          subst hd
          have hw' : wsRunHasNL cs' = false := by
            cases cs' with
            | nil => rfl
            | cons e cs'' =>
              have he_ne : ¬(e = '\n') := by
                rw [noTripleNL_cons₃] at h3
                obtain ⟨htri, -⟩ := bAnd_mp h3
                intro he
                rw [he] at htri
                exact absurd htri (by decide)
              have he_nws : isSpacePy e = false := by
                have h2' := noWsAfterNL_tail h2
                rw [noWsAfterNL_cons₂] at h2'
                obtain ⟨hpair, -⟩ := bAnd_mp h2'
                by_contra hws
                have hws' : isSpacePy e = true := by simpa using hws
                have hinner : (decide ('\n' = '\n') && isSpacePy e && !(decide (e = '\n'))) = true := by
                  rw [hws', decide_eq_false he_ne]
                  rfl
                rw [hinner] at hpair
                simp at hpair
              exact wsRunHasNL_cons_nonws he_nws
          have hafter : afterLastNL ('\n' :: cs') = cs' := by
            unfold afterLastNL
            rw [if_pos (by decide), if_pos (by rw [hw']; rfl)]
          unfold subBlankF
          rw [if_pos hm, hafter]
          have hrec : subBlankF f' cs' = cs' := by
            apply ih
            · exact noWsAfterNL_tail (noWsAfterNL_tail h2)
            · exact noTripleNL_tail (noTripleNL_tail h3)
            · simp at hlen
              omega
          rw [hrec]
      · unfold subBlankF
        rw [if_neg hm]
        have hrec : subBlankF f' cs = cs := by
          apply ih
          · exact noWsAfterNL_tail h2
          · exact noTripleNL_tail h3
          · simp at hlen
            omega
        rw [hrec]

theorem subBlank_eq_self {s : List Char} (h2 : noWsAfterNL s = true)
    (h3 : noTripleNL s = true) : subBlank s = s :=
  subBlankF_eq_self _ _ h2 h3 le_rfl

theorem noDoubleSpace_cons_nl (t : List Char) :
    noDoubleSpace ('\n' :: t) = noDoubleSpace t := by
  cases t <;> rfl

theorem noDoubleSpace_subBlankF : ∀ (f : Nat) (s : List Char),
    noDoubleSpace s = true → noDoubleSpace (subBlankF f s) = true := by
  intro f
  induction f with
  | zero => intro s h; exact h
  | succ f' ih =>
    intro s h
    cases s with
    | nil => rfl
    | cons c cs =>
      by_cases hm : (c = '\n' && wsRunHasNL cs) = true
      · unfold subBlankF
        rw [if_pos hm, noDoubleSpace_cons_nl, noDoubleSpace_cons_nl]
        apply ih
        obtain ⟨a, ha⟩ := afterLastNL_suffix cs
        apply @noDoubleSpace_suffix a _
        rw [← ha]
        exact noDoubleSpace_tail h
      · unfold subBlankF
        rw [if_neg hm]
        cases hY : subBlankF f' cs with
        | nil => rfl
        | cons y ys =>
          have hhead := subBlankF_head f' cs
          rw [hY] at hhead
          cases cs with
          | nil => simp at hhead
          | cons d cs' =>
            rw [List.head?_cons, List.head?_cons] at hhead
            have hyd : y = d := Option.some.inj hhead
            rw [noDoubleSpace_cons₂]
            apply bAnd_mpr
            · rw [hyd]
              rw [noDoubleSpace_cons₂] at h
              exact (bAnd_mp h).1
            · have := ih (d :: cs') (noDoubleSpace_tail h)
              rw [hY] at this
              exact this

theorem noTripleNL_cons {c : Char} {t : List Char} (h : noTripleNL t = true)
    (hno : ∀ t', t = '\n' :: '\n' :: t' → ¬(c = '\n')) : noTripleNL (c :: t) = true := by
  cases t with
  | nil => rfl
  | cons b t2 =>
    cases t2 with
    | nil => rfl
    | cons b2 t3 =>
      rw [noTripleNL_cons₃]
      apply bAnd_mpr _ h
      by_cases hb : b = '\n'
      · by_cases hb2 : b2 = '\n'
        · subst hb
          subst hb2
          rw [decide_eq_false (hno t3 rfl)]
          rfl
        · rw [decide_eq_false hb2, Bool.and_false]
          rfl
      · rw [decide_eq_false hb, Bool.and_false, Bool.false_and]
        rfl

theorem noTripleNL_subBlankF : ∀ (f : Nat) (s : List Char), s.length ≤ f →
    noTripleNL (subBlankF f s) = true := by
  intro f
  induction f with
  | zero =>
    intro s hlen
    cases s with
    | nil => rfl
    | cons => simp at hlen
  | succ f' ih =>
    intro s hlen
    cases s with
    | nil => rfl
    | cons c cs =>
      have hlcs : cs.length ≤ f' := by
        simp at hlen
        omega
      by_cases hm : (c = '\n' && wsRunHasNL cs) = true
      · unfold subBlankF
        rw [if_pos hm]
        have hlen2 : (afterLastNL cs).length ≤ f' :=
          le_trans (afterLastNL_length_le cs) hlcs
        have hXhead : (subBlankF f' (afterLastNL cs)).head? ≠ some '\n' := by
          rw [subBlankF_head]
          exact afterLastNL_head_ne_nl cs
        apply noTripleNL_cons
        · apply noTripleNL_cons (ih _ hlen2)
          intro t' ht' _
          exact hXhead (by rw [ht']; rfl)
        · intro t' ht' _
          apply hXhead
          obtain ⟨-, h2⟩ := List.cons.inj ht'
          rw [h2]
          rfl
      · unfold subBlankF
        rw [if_neg hm]
        apply noTripleNL_cons (ih cs hlcs)
        intro t' ht' hc
        apply hm
        have hh : cs.head? = some '\n' := by
          rw [← subBlankF_head f' cs, ht']
          rfl
        cases cs with
        | nil => simp at hh
        | cons d cs' =>
          rw [List.head?_cons] at hh
          have hd := Option.some.inj hh
          subst hd
          rw [decide_eq_true hc, wsRunHasNL_cons_nl]
          rfl

theorem wsRunHasNL_subBlankF : ∀ (f : Nat) (s : List Char), s.length ≤ f →
    wsRunHasNL (subBlankF f s) = wsRunHasNL s := by
  intro f
  induction f with
  | zero =>
    intro s hlen
    cases s with
    | nil => rfl
    | cons => simp at hlen
  | succ f' ih =>
    intro s hlen
    cases s with
    | nil => rfl
    | cons c cs =>
      have hlcs : cs.length ≤ f' := by
        simp at hlen
        omega
      by_cases hm : (c = '\n' && wsRunHasNL cs) = true
      · unfold subBlankF
        rw [if_pos hm]
        obtain ⟨hc, -⟩ := bAnd_mp hm
        rw [wsRunHasNL_cons_nl, of_decide_eq_true hc, wsRunHasNL_cons_nl]
      · unfold subBlankF
        rw [if_neg hm]
        by_cases hcw : isSpacePy c = true
        · by_cases hcn : c = '\n'
          · subst hcn
            rw [wsRunHasNL_cons_nl, wsRunHasNL_cons_nl]
          · rw [wsRunHasNL_cons_ws hcw hcn, wsRunHasNL_cons_ws hcw hcn]
            exact ih cs hlcs
        · rw [wsRunHasNL_cons_nonws (by simpa using hcw),
            wsRunHasNL_cons_nonws (by simpa using hcw)]

theorem noWsGap_subBlankF : ∀ (f : Nat) (s : List Char), s.length ≤ f →
    noWsGap (subBlankF f s) = true := by
  intro f
  induction f with
  | zero =>
    intro s hlen
    cases s with
    | nil => rfl
    | cons => simp at hlen
  | succ f' ih =>
    intro s hlen
    cases s with
    | nil => rfl
    | cons c cs =>
      have hlcs : cs.length ≤ f' := by
        simp at hlen
        omega
      by_cases hm : (c = '\n' && wsRunHasNL cs) = true
      · unfold subBlankF
        rw [if_pos hm, noWsGap_cons]
        apply bAnd_mpr
        · rw [if_pos rfl, List.head?_cons,
            show (!(decide ((some '\n' : Option Char) = some '\n'))) = false from rfl,
            Bool.and_false]
          rfl
        · rw [noWsGap_cons]
          apply bAnd_mpr
          · rw [if_pos rfl]
            have hX : wsRunHasNL (subBlankF f' (afterLastNL cs)) = false := by
              rw [wsRunHasNL_subBlankF f' _ (le_trans (afterLastNL_length_le cs) hlcs)]
              exact wsRunHasNL_afterLastNL cs
            rw [hX, Bool.false_and]
            rfl
          · exact ih _ (le_trans (afterLastNL_length_le cs) hlcs)
      · unfold subBlankF
        rw [if_neg hm, noWsGap_cons]
        apply bAnd_mpr
        · by_cases hc : c = '\n'
          · rw [if_pos hc]
            have hcsw : wsRunHasNL (subBlankF f' cs) = false := by
              rw [wsRunHasNL_subBlankF f' cs hlcs]
              cases hw : wsRunHasNL cs with
              | false => rfl
              | true => exact absurd (bAnd_mpr (decide_eq_true hc) hw) hm
            rw [hcsw, Bool.false_and]
            rfl
          · rw [if_neg hc]
        · exact ih cs hlcs

theorem mem_subBlankF : ∀ (f : Nat) (s : List Char) (c : Char),
    c ∈ subBlankF f s → c ∈ s ∨ c = '\n' := by
  intro f
  induction f with
  | zero => intro s c h; exact Or.inl h
  | succ f' ih =>
    intro s c h
    cases s with
    | nil => exact absurd h (List.not_mem_nil c)
    | cons a cs =>
      by_cases hm : (a = '\n' && wsRunHasNL cs) = true
      · unfold subBlankF at h
        rw [if_pos hm] at h
        rcases List.mem_cons.mp h with rfl | h'
        · exact Or.inr rfl
        · rcases List.mem_cons.mp h' with rfl | h''
          · exact Or.inr rfl
          · rcases ih _ c h'' with hmem | hnl
            · refine Or.inl (List.mem_cons_of_mem _ ?_)
              obtain ⟨p, hp⟩ := afterLastNL_suffix cs
              rw [hp]
              exact List.mem_append_right _ hmem
            · exact Or.inr hnl
      · unfold subBlankF at h
        rw [if_neg hm] at h
        rcases List.mem_cons.mp h with rfl | h'
        · exact Or.inl (List.mem_cons_self _ _)
        · rcases ih _ c h' with hmem | hnl
          · exact Or.inl (List.mem_cons_of_mem _ hmem)
          · exact Or.inr hnl

theorem splitNL_cons_nl (cs : List Char) : splitNL ('\n' :: cs) = [] :: splitNL cs := by
  conv_lhs => unfold splitNL
  rw [if_pos rfl]

theorem splitNL_cons_ne {c : Char} (hc : ¬(c = '\n')) {cs : List Char}
    {l : List Char} {ls : List (List Char)} (h : splitNL cs = l :: ls) :
    splitNL (c :: cs) = (c :: l) :: ls := by
  unfold splitNL
  rw [if_neg hc, h]

theorem splitNL_ne_nil (s : List Char) : ∃ l ls, splitNL s = l :: ls := by
  induction s with
  | nil => exact ⟨[], [], rfl⟩
  | cons c cs ih =>
    by_cases hc : c = '\n'
    · subst hc
      exact ⟨[], splitNL cs, splitNL_cons_nl cs⟩
    · obtain ⟨l, ls, h⟩ := ih
      exact ⟨c :: l, ls, splitNL_cons_ne hc h⟩

theorem joinNL_splitNL (s : List Char) : joinNL (splitNL s) = s := by
  induction s with
  | nil => rfl
  | cons c cs ih =>
    by_cases hc : c = '\n'
    · subst hc
      rw [splitNL_cons_nl]
      obtain ⟨l0, ls, hcs⟩ := splitNL_ne_nil cs
      rw [hcs]
      rw [hcs] at ih
      show [] ++ '\n' :: joinNL (l0 :: ls) = '\n' :: cs
      rw [List.nil_append, ih]
    · obtain ⟨l0, ls, hcs⟩ := splitNL_ne_nil cs
      rw [splitNL_cons_ne hc hcs]
      rw [hcs] at ih
      cases ls with
      | nil =>
        show c :: l0 = c :: cs
        rw [show joinNL [l0] = l0 from rfl] at ih
        rw [ih]
      | cons m ms =>
        show (c :: l0) ++ '\n' :: joinNL (m :: ms) = c :: cs
        rw [List.cons_append, ← ih]
        rfl

theorem splitNL_head_line : ∀ {cs : List Char} {l0 : List Char} {ls : List (List Char)},
    splitNL cs = l0 :: ls → l0 = [] ∨ ∃ x cs', cs = x :: cs' ∧ l0.head? = some x := by
  intro cs l0 ls h
  cases cs with
  | nil =>
    rw [show splitNL ([] : List Char) = [[]] from rfl] at h
    obtain ⟨h1, -⟩ := List.cons.inj h
    exact Or.inl h1.symm
  | cons x cs' =>
    by_cases hx : x = '\n'
    · subst hx
      rw [splitNL_cons_nl] at h
      obtain ⟨h1, -⟩ := List.cons.inj h
      exact Or.inl h1.symm
    · obtain ⟨m, ms, hcs⟩ := splitNL_ne_nil cs'
      rw [splitNL_cons_ne hx hcs] at h
      obtain ⟨h1, -⟩ := List.cons.inj h
      right
      exact ⟨x, cs', rfl, by rw [← h1]; rfl⟩

theorem noDoubleSpace_lines {s : List Char} (h : noDoubleSpace s = true) :
    ∀ l ∈ splitNL s, noDoubleSpace l = true := by
  induction s with
  | nil =>
    intro l hl
    rw [show splitNL ([] : List Char) = [[]] from rfl] at hl
    rcases List.mem_cons.mp hl with rfl | hl'
    · rfl
    · exact absurd hl' (List.not_mem_nil l)
  | cons c cs ih =>
    by_cases hc : c = '\n'
    · subst hc
      rw [splitNL_cons_nl]
      intro l hl
      rcases List.mem_cons.mp hl with rfl | hl'
      · rfl
      · exact ih (noDoubleSpace_tail h) l hl'
    · obtain ⟨l0, ls, hcs⟩ := splitNL_ne_nil cs
      rw [splitNL_cons_ne hc hcs]
      intro l hl
      rcases List.mem_cons.mp hl with rfl | hl'
      · have hl0 : noDoubleSpace l0 = true :=
          ih (noDoubleSpace_tail h) l0 (by rw [hcs]; exact List.mem_cons_self _ _)
        cases hll : l0 with
        | nil => rfl
        | cons x xs =>
          rcases splitNL_head_line hcs with h0 | ⟨y, cs', hceq, hhead⟩
          · rw [h0] at hll
            exact absurd hll (by simp)
          · rw [hll, List.head?_cons] at hhead
            have hxy := Option.some.inj hhead
            rw [noDoubleSpace_cons₂]
            apply bAnd_mpr
            · rw [hceq, noDoubleSpace_cons₂] at h
              rw [hxy]
              exact (bAnd_mp h).1
            · rw [← hll]
              exact hl0
      · exact ih (noDoubleSpace_tail h) l (by rw [hcs]; exact List.mem_cons_of_mem _ hl')

theorem splitNL_no_nl : ∀ {s : List Char} {l : List Char}, l ∈ splitNL s → '\n' ∉ l := by
  intro s
  induction s with
  | nil =>
    intro l hl
    rw [show splitNL ([] : List Char) = [[]] from rfl] at hl
    rcases List.mem_cons.mp hl with rfl | hl'
    · exact List.not_mem_nil _
    · exact absurd hl' (List.not_mem_nil l)
  | cons c cs ih =>
    intro l hl
    by_cases hc : c = '\n'
    · subst hc
      rw [splitNL_cons_nl] at hl
      rcases List.mem_cons.mp hl with rfl | hl'
      · exact List.not_mem_nil _
      · exact ih hl'
    · obtain ⟨l0, ls, hcs⟩ := splitNL_ne_nil cs
      rw [splitNL_cons_ne hc hcs] at hl
      rcases List.mem_cons.mp hl with rfl | hl'
      · intro hmem
        rcases List.mem_cons.mp hmem with heq | hmem'
        · exact hc heq.symm
        · exact ih (l := l0) (by rw [hcs]; exact List.mem_cons_self _ _) hmem'
      · exact ih (by rw [hcs]; exact List.mem_cons_of_mem _ hl')

theorem mem_splitNL_line : ∀ {s : List Char} {l : List Char} {c : Char},
    l ∈ splitNL s → c ∈ l → c ∈ s := by
  intro s
  induction s with
  | nil =>
    intro l c hl hc
    rw [show splitNL ([] : List Char) = [[]] from rfl] at hl
    rcases List.mem_cons.mp hl with rfl | hl'
    · exact absurd hc (List.not_mem_nil c)
    · exact absurd hl' (List.not_mem_nil l)
  | cons a cs ih =>
    intro l c hl hc
    by_cases ha : a = '\n'
    · subst ha
      rw [splitNL_cons_nl] at hl
      rcases List.mem_cons.mp hl with rfl | hl'
      · exact absurd hc (List.not_mem_nil c)
      · exact List.mem_cons_of_mem _ (ih hl' hc)
    · obtain ⟨l0, ls, hcs⟩ := splitNL_ne_nil cs
      rw [splitNL_cons_ne ha hcs] at hl
      rcases List.mem_cons.mp hl with rfl | hl'
      · rcases List.mem_cons.mp hc with rfl | hc'
        · exact List.mem_cons_self _ _
        · exact List.mem_cons_of_mem _
            (ih (l := l0) (by rw [hcs]; exact List.mem_cons_self _ _) hc')
      · exact List.mem_cons_of_mem _
          (ih (by rw [hcs]; exact List.mem_cons_of_mem _ hl') hc)

theorem exists_nl_split {s : List Char} (h : '\n' ∈ s) :
    ∃ w rest, s = w ++ '\n' :: rest ∧ '\n' ∉ w := by
  induction s with
  | nil => exact absurd h (List.not_mem_nil _)
  | cons c cs ih =>
    by_cases hc : c = '\n'
    · subst hc
      exact ⟨[], cs, rfl, List.not_mem_nil _⟩
    · have hcs : '\n' ∈ cs := by
        rcases List.mem_cons.mp h with heq | hmem
        · exact absurd heq.symm hc
        · exact hmem
      obtain ⟨w, rest, hw, hnl⟩ := ih hcs
      refine ⟨c :: w, rest, by rw [hw, List.cons_append], ?_⟩
      intro hm
      rcases List.mem_cons.mp hm with heq | hmem
      · exact hc heq.symm
      · exact hnl hmem

theorem splitNL_no_nl_eq {s : List Char} (h : '\n' ∉ s) : splitNL s = [s] := by
  induction s with
  | nil => rfl
  | cons c cs ih =>
    have hc : ¬(c = '\n') := fun heq => h (by rw [heq]; exact List.mem_cons_self _ _)
    rw [splitNL_cons_ne hc (ih (fun hm => h (List.mem_cons_of_mem _ hm)))]

theorem splitNL_append_nl {w rest : List Char} (hw : '\n' ∉ w) :
    splitNL (w ++ '\n' :: rest) = w :: splitNL rest := by
  induction w with
  | nil =>
    rw [List.nil_append, splitNL_cons_nl]
  | cons a w' ih =>
    have ha : ¬(a = '\n') := fun heq => hw (by rw [heq]; exact List.mem_cons_self _ _)
    rw [List.cons_append,
      splitNL_cons_ne ha (ih (fun hm => hw (List.mem_cons_of_mem _ hm)))]

theorem splitNL_cons_inv : ∀ {cs w0 l1 : List Char} {t : List (List Char)},
    splitNL cs = w0 :: l1 :: t →
    ∃ cs2, cs = w0 ++ '\n' :: cs2 ∧ '\n' ∉ w0 ∧ splitNL cs2 = l1 :: t := by
  intro cs
  induction cs with
  | nil =>
    intro w0 l1 t h
    rw [show splitNL ([] : List Char) = [[]] from rfl] at h
    obtain ⟨-, h2⟩ := List.cons.inj h
    exact absurd h2.symm (by simp)
  | cons c cs0 ih =>
    intro w0 l1 t h
    by_cases hc : c = '\n'
    · subst hc
      rw [splitNL_cons_nl] at h
      obtain ⟨h1, h2⟩ := List.cons.inj h
      refine ⟨cs0, ?_, ?_, h2⟩
      · rw [← h1]; rfl
      · rw [← h1]; exact List.not_mem_nil _
    · obtain ⟨l0, ls, hcs0⟩ := splitNL_ne_nil cs0
      rw [splitNL_cons_ne hc hcs0] at h
      obtain ⟨h1, h2⟩ := List.cons.inj h
      obtain ⟨cs2, heq, hnl, hsp⟩ := @ih l0 l1 t (by rw [hcs0, h2])
      refine ⟨cs2, ?_, ?_, hsp⟩
      · rw [← h1, List.cons_append, ← heq]
      · rw [← h1]
        intro hm
        rcases List.mem_cons.mp hm with heq2 | hmem
        · exact hc heq2.symm
        · exact hnl hmem

theorem dropTrailingWs_eq_nil : ∀ {t : List Char}, dropTrailingWs t = [] →
    ∀ c ∈ t, isSpacePy c = true := by
  intro t
  induction t with
  | nil => intro _ c hc; exact absurd hc (List.not_mem_nil c)
  | cons x cs ih =>
    intro h c hmem
    rw [dropTrailingWs_cons] at h
    by_cases hc : ((dropTrailingWs cs).isEmpty && isSpacePy x) = true
    · rcases List.mem_cons.mp hmem with rfl | hmem2
      · exact (bAnd_mp hc).2
      · cases hcs : dropTrailingWs cs with
        | nil => exact ih hcs c hmem2
        | cons y r =>
          rw [hcs] at hc
          simp at hc
    · rw [if_neg hc] at h
      exact absurd h (by simp)

theorem pyStrip_eq_nil {s : List Char} (h : pyStrip s = []) :
    ∀ c ∈ s, isSpacePy c = true := by
  intro c hc
  have hsplit := List.takeWhile_append_dropWhile (p := isSpacePy) (l := s)
  rw [← hsplit] at hc
  rcases List.mem_append.mp hc with h1 | h2
  · exact List.mem_takeWhile_imp h1
  · exact dropTrailingWs_eq_nil h c h2

theorem noMidPair_cons₄ (a b c d : List Char) (rest : List (List Char)) :
    noMidPair (a :: b :: c :: d :: rest)
      = (!(b.isEmpty && c.isEmpty) && noMidPair (b :: c :: d :: rest)) := rfl

theorem noMidPair_tail {a : List Char} {R : List (List Char)}
    (h : noMidPair (a :: R) = true) : noMidPair R = true := by
  cases R with
  | nil => rfl
  | cons b R2 =>
    cases R2 with
    | nil => rfl
    | cons c R3 =>
      cases R3 with
      | nil => rfl
      | cons d R4 => exact (bAnd_mp h).2

theorem noMidPair_head_irrel (x y : List Char) (R : List (List Char)) :
    noMidPair (x :: R) = noMidPair (y :: R) := by
  cases R with
  | nil => rfl
  | cons b R2 =>
    cases R2 with
    | nil => rfl
    | cons c R3 =>
      cases R3 with
      | nil => rfl
      | cons d R4 => rfl

theorem mem_collapseSpaces : ∀ {s : List Char} {c : Char},
    c ∈ collapseSpaces s → c ∈ s := by
  intro s
  induction s with
  | nil => intro c h; exact absurd h (List.not_mem_nil c)
  | cons c0 cs ih =>
    intro c h
    cases cs with
    | nil => exact h
    | cons d cs2 =>
      by_cases hp : (c0 = ' ' && d = ' ') = true
      · rw [collapseSpaces_cons₂, if_pos hp] at h
        exact List.mem_cons_of_mem _ (ih h)
      · rw [collapseSpaces_cons₂, if_neg hp] at h
        rcases List.mem_cons.mp h with rfl | h2
        · exact List.mem_cons_self _ _
        · exact List.mem_cons_of_mem _ (ih h2)

theorem mem_joinNL : ∀ {L : List (List Char)} {c : Char},
    c ∈ joinNL L → (∃ l ∈ L, c ∈ l) ∨ c = '\n' := by
  intro L
  induction L with
  | nil => intro c h; exact absurd h (List.not_mem_nil c)
  | cons l L2 ih =>
    intro c h
    cases L2 with
    | nil => exact Or.inl ⟨l, List.mem_cons_self _ _, h⟩
    | cons m ms =>
      have h' : c ∈ l ++ '\n' :: joinNL (m :: ms) := h
      rcases List.mem_append.mp h' with h1 | h2
      · exact Or.inl ⟨l, List.mem_cons_self _ _, h1⟩
      · rcases List.mem_cons.mp h2 with rfl | h3
        · exact Or.inr rfl
        · rcases ih h3 with ⟨l2, hl2, hc2⟩ | hnl
          · exact Or.inl ⟨l2, List.mem_cons_of_mem _ hl2, hc2⟩
          · exact Or.inr hnl

theorem map_pyStrip_fix : ∀ {L : List (List Char)},
    (∀ l ∈ L, pyStrip l = l) → L.map pyStrip = L := by
  intro L
  induction L with
  | nil => intro _; rfl
  | cons l L2 ih =>
    intro h
    rw [List.map_cons, h l (List.mem_cons_self _ _),
      ih (fun x hx => h x (List.mem_cons_of_mem _ hx))]

theorem noNL_noWsAfterNL : ∀ {l : List Char}, '\n' ∉ l → noWsAfterNL l = true := by
  intro l
  induction l with
  | nil => intro _; rfl
  | cons a t ih =>
    intro h
    cases t with
    | nil => rfl
    | cons b ts =>
      rw [noWsAfterNL_cons₂]
      apply bAnd_mpr
      · rw [decide_eq_false (fun heq => h (by rw [heq]; exact List.mem_cons_self _ _)),
          Bool.false_and, Bool.false_and]
        rfl
      · exact ih (fun hm => h (List.mem_cons_of_mem _ hm))

theorem noNL_noWsBeforeNL : ∀ {l : List Char}, '\n' ∉ l → noWsBeforeNL l = true := by
  intro l
  induction l with
  | nil => intro _; rfl
  | cons a t ih =>
    intro h
    cases t with
    | nil => rfl
    | cons b ts =>
      rw [noWsBeforeNL_cons₂]
      apply bAnd_mpr
      · have hb : ¬(b = '\n') := fun heq =>
          h (List.mem_cons_of_mem _ (by rw [← heq]; exact List.mem_cons_self b ts))
        rw [show (decide (b = '\n')) = false from decide_eq_false hb, Bool.and_false]
        rfl
      · exact ih (fun hm => h (List.mem_cons_of_mem _ hm))

theorem noNL_noTripleNL : ∀ {l : List Char}, '\n' ∉ l → noTripleNL l = true := by
  intro l
  induction l with
  | nil => intro _; rfl
  | cons a t ih =>
    intro h
    apply noTripleNL_cons (ih (fun hm => h (List.mem_cons_of_mem _ hm)))
    intro t2 _ ha
    exact h (by rw [ha]; exact List.mem_cons_self _ _)

theorem noDoubleSpace_append_nl : ∀ {l X : List Char}, noDoubleSpace l = true →
    noDoubleSpace X = true → noDoubleSpace (l ++ '\n' :: X) = true := by
  intro l
  induction l with
  | nil =>
    intro X _ hX
    rw [List.nil_append, noDoubleSpace_cons_nl]
    exact hX
  | cons a l2 ihl =>
    intro X hl hX
    cases l2 with
    | nil =>
      show noDoubleSpace (a :: '\n' :: X) = true
      rw [noDoubleSpace_cons₂]
      apply bAnd_mpr
      · rw [show (decide ('\n' = ' ')) = false from rfl, Bool.and_false]
        rfl
      · rw [noDoubleSpace_cons_nl]
        exact hX
    | cons b ts =>
      show noDoubleSpace (a :: b :: (ts ++ '\n' :: X)) = true
      rw [noDoubleSpace_cons₂]
      apply bAnd_mpr
      · rw [noDoubleSpace_cons₂] at hl
        exact (bAnd_mp hl).1
      · exact ihl (noDoubleSpace_tail hl) hX

theorem noDoubleSpace_joinNL : ∀ {L : List (List Char)},
    (∀ l ∈ L, noDoubleSpace l = true) → noDoubleSpace (joinNL L) = true := by
  intro L
  induction L with
  | nil => intro _; rfl
  | cons l L2 ih =>
    intro h
    cases L2 with
    | nil => exact h l (List.mem_cons_self _ _)
    | cons m ms =>
      show noDoubleSpace (l ++ '\n' :: joinNL (m :: ms)) = true
      exact noDoubleSpace_append_nl (h l (List.mem_cons_self _ _))
        (ih (fun x hx => h x (List.mem_cons_of_mem _ hx)))

theorem noWsAfterNL_append_noNL : ∀ {l X : List Char}, '\n' ∉ l →
    noWsAfterNL X = true → noWsAfterNL (l ++ X) = true := by
  intro l
  induction l with
  | nil => intro X _ hX; exact hX
  | cons a l2 ihl =>
    intro X hlnl hX
    have ha : ¬(a = '\n') := fun heq => hlnl (by rw [heq]; exact List.mem_cons_self _ _)
    cases hlx : l2 ++ X with
    | nil =>
      show noWsAfterNL (a :: (l2 ++ X)) = true
      rw [hlx]
      rfl
    | cons b t =>
      show noWsAfterNL (a :: (l2 ++ X)) = true
      rw [hlx, noWsAfterNL_cons₂]
      apply bAnd_mpr
      · rw [decide_eq_false ha, Bool.false_and, Bool.false_and]
        rfl
      · rw [← hlx]
        exact ihl (fun hm => hlnl (List.mem_cons_of_mem _ hm)) hX

theorem noWsAfterNL_cons_nl {J : List Char} (hJ : noWsAfterNL J = true)
    (hhead : ∀ b, J.head? = some b → isSpacePy b = false ∨ b = '\n') :
    noWsAfterNL ('\n' :: J) = true := by
  cases J with
  | nil => rfl
  | cons b t =>
    rw [noWsAfterNL_cons₂]
    apply bAnd_mpr
    · rcases hhead b rfl with hb | hb
      · rw [hb, Bool.and_false, Bool.false_and]
        rfl
      · rw [hb, show (!(decide ('\n' = '\n'))) = false from rfl, Bool.and_false]
        rfl
    · exact hJ

theorem joinNL_head_ok : ∀ (L : List (List Char)), (∀ l ∈ L, pyStrip l = l) →
    ∀ b, (joinNL L).head? = some b → isSpacePy b = false ∨ b = '\n' := by
  intro L
  induction L with
  | nil =>
    intro _ b hb
    exact absurd hb (by simp [joinNL])
  | cons m ms ih =>
    intro hS b hb
    cases m with
    | cons x xs =>
      have hx : b = x := by
        cases ms with
        | nil => exact (Option.some.inj hb).symm
        | cons m2 ms2 =>
          have hb2 : (x :: (xs ++ '\n' :: joinNL (m2 :: ms2))).head? = some b := hb
          exact (Option.some.inj hb2).symm
      left
      have hfix := hS (x :: xs) (List.mem_cons_self _ _)
      exact pyStrip_head_not_ws (s := x :: xs) (by rw [hfix, List.head?_cons, hx])
    | nil =>
      cases ms with
      | nil =>
        rw [show joinNL [([] : List Char)] = [] from rfl] at hb
        exact absurd hb (by simp)
      | cons m2 ms2 =>
        have hb2 : ('\n' :: joinNL (m2 :: ms2)).head? = some b := hb
        right
        exact (Option.some.inj hb2).symm

theorem noWsAfterNL_joinNL : ∀ (L : List (List Char)), (∀ l ∈ L, '\n' ∉ l) →
    (∀ l ∈ L, pyStrip l = l) → noWsAfterNL (joinNL L) = true := by
  intro L
  induction L with
  | nil => intro _ _; rfl
  | cons l L2 ih =>
    intro hN hS
    cases L2 with
    | nil => exact noNL_noWsAfterNL (hN l (List.mem_cons_self _ _))
    | cons m ms =>
      show noWsAfterNL (l ++ '\n' :: joinNL (m :: ms)) = true
      apply noWsAfterNL_append_noNL (hN l (List.mem_cons_self _ _))
      apply noWsAfterNL_cons_nl
      · exact ih (fun x hx => hN x (List.mem_cons_of_mem _ hx))
          (fun x hx => hS x (List.mem_cons_of_mem _ hx))
      · exact joinNL_head_ok (m :: ms) (fun x hx => hS x (List.mem_cons_of_mem _ hx))

theorem noWsBeforeNL_append_lastok : ∀ {l X : List Char},
    (∀ a, l.getLast? = some a → isSpacePy a = false) → noWsBeforeNL l = true →
    noWsBeforeNL X = true → noWsBeforeNL (l ++ X) = true := by
  intro l
  induction l with
  | nil => intro X _ _ hX; exact hX
  | cons a l2 ihl =>
    intro X hlast hl hX
    cases l2 with
    | nil =>
      cases X with
      | nil => rfl
      | cons b t =>
        show noWsBeforeNL (a :: b :: t) = true
        rw [noWsBeforeNL_cons₂]
        apply bAnd_mpr
        · rw [hlast a rfl, Bool.false_and, Bool.false_and]
          rfl
        · exact hX
    | cons b ts =>
      show noWsBeforeNL (a :: b :: (ts ++ X)) = true
      rw [noWsBeforeNL_cons₂]
      apply bAnd_mpr
      · rw [noWsBeforeNL_cons₂] at hl
        exact (bAnd_mp hl).1
      · exact ihl (fun c hc => hlast c (by rw [List.getLast?_cons_cons]; exact hc))
          (noWsBeforeNL_tail hl) hX

theorem noWsBeforeNL_cons_nl {J : List Char} (hJ : noWsBeforeNL J = true) :
    noWsBeforeNL ('\n' :: J) = true := by
  cases J with
  | nil => rfl
  | cons b t =>
    rw [noWsBeforeNL_cons₂]
    apply bAnd_mpr
    · rfl
    · exact hJ

theorem noWsBeforeNL_joinNL : ∀ (L : List (List Char)), (∀ l ∈ L, '\n' ∉ l) →
    (∀ l ∈ L, pyStrip l = l) → noWsBeforeNL (joinNL L) = true := by
  intro L
  induction L with
  | nil => intro _ _; rfl
  | cons l L2 ih =>
    intro hN hS
    cases L2 with
    | nil => exact noNL_noWsBeforeNL (hN l (List.mem_cons_self _ _))
    | cons m ms =>
      show noWsBeforeNL (l ++ '\n' :: joinNL (m :: ms)) = true
      apply noWsBeforeNL_append_lastok
      · intro a ha
        exact pyStrip_last_not_ws (s := l) (by rw [hS l (List.mem_cons_self _ _)]; exact ha)
      · exact noNL_noWsBeforeNL (hN l (List.mem_cons_self _ _))
      · exact noWsBeforeNL_cons_nl
          (ih (fun x hx => hN x (List.mem_cons_of_mem _ hx))
            (fun x hx => hS x (List.mem_cons_of_mem _ hx)))

theorem noTripleNL_append_noNL : ∀ {l X : List Char}, '\n' ∉ l →
    noTripleNL X = true → noTripleNL (l ++ X) = true := by
  intro l
  induction l with
  | nil => intro X _ hX; exact hX
  | cons a l2 ihl =>
    intro X hlnl hX
    show noTripleNL (a :: (l2 ++ X)) = true
    apply noTripleNL_cons (ihl (fun hm => hlnl (List.mem_cons_of_mem _ hm)) hX)
    intro t2 _ ha
    exact hlnl (by rw [ha]; exact List.mem_cons_self _ _)

theorem isEmpty_true_eq_nil {l : List Char} (h : l.isEmpty = true) : l = [] := by
  cases l with
  | nil => rfl
  | cons x xs => simp at h

theorem noTripleNL_joinNL : ∀ (L : List (List Char)), (∀ l ∈ L, '\n' ∉ l) →
    noMidPair L = true → noTripleNL (joinNL L) = true := by
  intro L
  induction L with
  | nil => intro _ _; rfl
  | cons l L2 ih =>
    intro hN hM
    cases L2 with
    | nil => exact noNL_noTripleNL (hN l (List.mem_cons_self _ _))
    | cons m ms =>
      show noTripleNL (l ++ '\n' :: joinNL (m :: ms)) = true
      apply noTripleNL_append_noNL (hN l (List.mem_cons_self _ _))
      have hJ : noTripleNL (joinNL (m :: ms)) = true :=
        ih (fun x hx => hN x (List.mem_cons_of_mem _ hx)) (noMidPair_tail hM)
      apply noTripleNL_cons hJ
      intro t2 hJt _
      exfalso
      cases m with
      | cons x xs =>
        have hx : x = '\n' := by
          cases ms with
          | nil => exact (List.cons.inj hJt).1
          | cons m2 ms2 =>
            have hJt2 : x :: (xs ++ '\n' :: joinNL (m2 :: ms2)) = '\n' :: '\n' :: t2 := hJt
            exact (List.cons.inj hJt2).1
        exact hN (x :: xs) (List.mem_cons_of_mem _ (List.mem_cons_self _ _))
          (by rw [hx]; exact List.mem_cons_self _ _)
      | nil =>
        cases ms with
        | nil =>
          have hJt2 : ([] : List Char) = '\n' :: '\n' :: t2 := hJt
          exact absurd hJt2 (by simp)
        | cons m2 ms2 =>
          have hJ2 : joinNL (m2 :: ms2) = '\n' :: t2 := by
            have hJt2 : '\n' :: joinNL (m2 :: ms2) = '\n' :: '\n' :: t2 := hJt
            exact (List.cons.inj hJt2).2
          cases m2 with
          | cons y ys =>
            have hy : y = '\n' := by
              cases ms2 with
              | nil => exact (List.cons.inj hJ2).1
              | cons m3 ms3 =>
                have hJ3 : y :: (ys ++ '\n' :: joinNL (m3 :: ms3)) = '\n' :: t2 := hJ2
                exact (List.cons.inj hJ3).1
            exact hN (y :: ys)
              (List.mem_cons_of_mem _ (List.mem_cons_of_mem _ (List.mem_cons_self _ _)))
              (by rw [hy]; exact List.mem_cons_self _ _)
          | nil =>
            cases ms2 with
            | nil =>
              have hJ3 : ([] : List Char) = '\n' :: t2 := hJ2
              exact absurd hJ3 (by simp)
            | cons m3 ms3 =>
              exact absurd (bAnd_mp hM).1 (by decide)

theorem noMidPair_lines : ∀ (s : List Char), noWsGap s = true → noTripleNL s = true →
    noMidPair ((splitNL s).map pyStrip) = true := by
  intro s
  induction s with
  | nil => intro _ _; rfl
  | cons c cs ih =>
    intro hG hT
    by_cases hc : c = '\n'
    · subst hc
      rw [splitNL_cons_nl, List.map_cons]
      have hMtail : noMidPair ((splitNL cs).map pyStrip) = true :=
        ih (noWsGap_tail hG) (noTripleNL_tail hT)
      cases hM : (splitNL cs).map pyStrip with
      | nil => rfl
      | cons b M1 =>
        cases M1 with
        | nil => rfl
        | cons c2 M2 =>
          cases M2 with
          | nil => rfl
          | cons d M4 =>
            rw [noMidPair_cons₄]
            apply bAnd_mpr
            · by_cases hb : b.isEmpty = true
              · by_cases hc2 : c2.isEmpty = true
                · exfalso
                  obtain ⟨w0, t1, hsp⟩ := splitNL_ne_nil cs
                  rw [hsp, List.map_cons] at hM
                  cases t1 with
                  | nil =>
                    rw [List.map_nil] at hM
                    exact absurd (List.cons.inj hM).2 (by simp)
                  | cons w1 t2 =>
                    rw [List.map_cons] at hM
                    obtain ⟨hw0, hM1⟩ := List.cons.inj hM
                    obtain ⟨hw1, hM2⟩ := List.cons.inj hM1
                    cases t2 with
                    | nil =>
                      rw [List.map_nil] at hM2
                      exact absurd hM2 (by simp)
                    | cons w2 t3 =>
                    have hw0e : ∀ e ∈ w0, isSpacePy e = true :=
                      pyStrip_eq_nil (by rw [hw0, isEmpty_true_eq_nil hb])
                    have hw1e : ∀ e ∈ w1, isSpacePy e = true :=
                      pyStrip_eq_nil (by rw [hw1, isEmpty_true_eq_nil hc2])
                    obtain ⟨cs1, hcs1, hw0nl, hsp1⟩ := splitNL_cons_inv hsp
                    obtain ⟨cs2, hcs2, hw1nl, -⟩ := splitNL_cons_inv hsp1
                    cases w0 with
                    | cons e0 w0r =>
                      rw [noWsGap_cons] at hG
                      have hch := (bAnd_mp hG).1
                      rw [if_pos rfl, hcs1, wsRunHasNL_ws_prefix hw0e,
                        List.cons_append, List.head?_cons] at hch
                      have he0 : ¬((some e0 : Option Char) = some '\n') := fun hsome =>
                        hw0nl (by rw [← Option.some.inj hsome]; exact List.mem_cons_self _ _)
                      rw [decide_eq_false he0] at hch
                      simp at hch
                    | nil =>
                      have hG2 : noWsGap ('\n' :: cs1) = true := by
                        have hGt := noWsGap_tail hG
                        rw [hcs1, List.nil_append] at hGt
                        exact hGt
                      cases w1 with
                      | nil =>
                        have hT3 : noTripleNL ('\n' :: '\n' :: '\n' :: cs2) = true := by
                          rw [hcs1, List.nil_append, hcs2, List.nil_append] at hT
                          exact hT
                        exact absurd (bAnd_mp hT3).1 (by decide)
                      | cons e1 w1r =>
                        rw [noWsGap_cons] at hG2
                        have hch := (bAnd_mp hG2).1
                        rw [if_pos rfl, hcs2, wsRunHasNL_ws_prefix hw1e,
                          List.cons_append, List.head?_cons] at hch
                        have he1 : ¬((some e1 : Option Char) = some '\n') := fun hsome =>
                          hw1nl (by rw [← Option.some.inj hsome]; exact List.mem_cons_self _ _)
                        rw [decide_eq_false he1] at hch
                        simp at hch
                · have hc2f : c2.isEmpty = false := by
                    cases hcc : c2.isEmpty with
                    | false => rfl
                    | true => exact absurd hcc hc2
                  rw [hc2f, Bool.and_false]
                  rfl
              · have hbf : b.isEmpty = false := by
                  cases hbb : b.isEmpty with
                  | false => rfl
                  | true => exact absurd hbb hb
                rw [hbf, Bool.false_and]
                rfl
            · rw [hM] at hMtail
              exact hMtail
    · obtain ⟨l0, ls, hcs⟩ := splitNL_ne_nil cs
      rw [splitNL_cons_ne hc hcs, List.map_cons]
      have hMtail := ih (noWsGap_tail hG) (noTripleNL_tail hT)
      rw [hcs, List.map_cons] at hMtail
      rw [noMidPair_head_irrel (pyStrip (c :: l0)) (pyStrip l0)]
      exact hMtail

theorem mem_of_head?_some {c : Char} {s : List Char} (h : s.head? = some c) : c ∈ s := by
  cases s with
  | nil => simp at h
  | cons x t =>
    rw [List.head?_cons] at h
    exact List.mem_cons.mpr (Or.inl (Option.some.inj h).symm)

theorem mem_of_getLast?_some : ∀ {s : List Char} {c : Char},
    s.getLast? = some c → c ∈ s := by
  intro s
  induction s with
  | nil => intro c h; simp at h
  | cons x t ih =>
    intro c h
    cases t with
    | nil =>
      rw [List.getLast?_singleton] at h
      exact List.mem_cons.mpr (Or.inl (Option.some.inj h).symm)
    | cons y t2 =>
      rw [List.getLast?_cons_cons] at h
      exact List.mem_cons_of_mem _ (ih h)

theorem getLast?_append_right : ∀ {A B : List Char}, B ≠ [] →
    (A ++ B).getLast? = B.getLast? := by
  intro A
  induction A with
  | nil => intro B _; rfl
  | cons x A2 ih =>
    intro B hB
    rw [List.cons_append]
    cases hAB : A2 ++ B with
    | nil => exact absurd (List.append_eq_nil.mp hAB).2 hB
    | cons z t =>
      rw [List.getLast?_cons_cons, ← hAB]
      exact ih hB

theorem noWsBeforeNL_last_of_append : ∀ {w rest : List Char},
    noWsBeforeNL (w ++ '\n' :: rest) = true →
    ∀ a, w.getLast? = some a → isSpacePy a = false ∨ a = '\n' := by
  intro w
  induction w with
  | nil => intro rest _ a ha; simp at ha
  | cons x w2 ihw =>
    intro rest h a ha
    cases w2 with
    | nil =>
      rw [List.getLast?_singleton] at ha
      have hax : x = a := Option.some.inj ha
      subst hax
      have hch := (bAnd_mp (show noWsBeforeNL (x :: '\n' :: rest) = true from h)).1
      by_cases hxn : x = '\n'
      · exact Or.inr hxn
      · cases hsx : isSpacePy x with
        | false => exact Or.inl rfl
        | true =>
          exfalso
          rw [hsx, decide_eq_false hxn] at hch
          simp at hch
    | cons y w3 =>
      rw [List.getLast?_cons_cons] at ha
      exact ihw (noWsBeforeNL_tail h) a ha

theorem noWsAfterNL_head_of_append : ∀ {w rest : List Char},
    noWsAfterNL (w ++ '\n' :: rest) = true →
    ∀ b, rest.head? = some b → isSpacePy b = false ∨ b = '\n' := by
  intro w
  induction w with
  | nil =>
    intro rest h b hb
    cases rest with
    | nil => simp at hb
    | cons b0 t =>
      rw [List.head?_cons] at hb
      have hbb : b0 = b := Option.some.inj hb
      subst hbb
      have hch := (bAnd_mp (show noWsAfterNL ('\n' :: b0 :: t) = true from h)).1
      by_cases hbn : b0 = '\n'
      · exact Or.inr hbn
      · cases hsx : isSpacePy b0 with
        | false => exact Or.inl rfl
        | true =>
          exfalso
          rw [hsx, decide_eq_false hbn] at hch
          simp at hch
  | cons x w2 ihw =>
    intro rest h b hb
    exact ihw (noWsAfterNL_tail h) b hb

theorem joinNL_last_ok : ∀ (L : List (List Char)), (∀ l ∈ L, pyStrip l = l) →
    ∀ b, (joinNL L).getLast? = some b → isSpacePy b = false ∨ b = '\n' := by
  intro L
  induction L with
  | nil =>
    intro _ b hb
    exact absurd hb (by simp [joinNL])
  | cons m ms ih =>
    intro hS b hb
    cases ms with
    | nil =>
      left
      exact pyStrip_last_not_ws (s := m)
        (by rw [hS m (List.mem_cons_self _ _)]; exact hb)
    | cons m2 ms2 =>
      have hb2 : (m ++ '\n' :: joinNL (m2 :: ms2)).getLast? = some b := hb
      rw [getLast?_append_right (by simp)] at hb2
      cases hJ : joinNL (m2 :: ms2) with
      | nil =>
        rw [hJ, List.getLast?_singleton] at hb2
        exact Or.inr (Option.some.inj hb2).symm
      | cons j t =>
        rw [hJ, List.getLast?_cons_cons] at hb2
        exact ih (fun x hx => hS x (List.mem_cons_of_mem _ hx)) b (by rw [hJ]; exact hb2)

theorem lines_strip_fixed_aux : ∀ (n : Nat) (s : List Char), s.length ≤ n →
    noWsAfterNL s = true → noWsBeforeNL s = true →
    (∀ c, s.head? = some c → isSpacePy c = false ∨ c = '\n') →
    (∀ c, s.getLast? = some c → isSpacePy c = false ∨ c = '\n') →
    ∀ l ∈ splitNL s, pyStrip l = l := by
  intro n
  induction n with
  | zero =>
    intro s hlen _ _ _ _ l hl
    have hs : s = [] := by
      cases s with
      | nil => rfl
      | cons x t => exact absurd hlen (by simp)
    subst hs
    rw [show splitNL ([] : List Char) = [[]] from rfl] at hl
    rcases List.mem_cons.mp hl with rfl | h2
    · rfl
    · exact absurd h2 (List.not_mem_nil l)
  | succ n ih =>
    intro s hlen hA hB hH hL l hl
    by_cases hnl : '\n' ∈ s
    · obtain ⟨w, rest, hw, hwnl⟩ := exists_nl_split hnl
      subst hw
      rw [splitNL_append_nl hwnl] at hl
      rcases List.mem_cons.mp hl with rfl | hl2
      · apply pyStrip_eq_self
        · intro c hc
          cases hw0 : l with
          | nil => rw [hw0] at hc; simp at hc
          | cons x w2 =>
            have hcx : c = x := by
              rw [hw0, List.head?_cons] at hc
              exact (Option.some.inj hc).symm
            have hhs : (l ++ '\n' :: rest).head? = some x := by
              rw [hw0, List.cons_append, List.head?_cons]
            rcases hH x hhs with h1 | h1
            · rw [hcx]; exact h1
            · exfalso
              rw [hw0] at hwnl
              exact hwnl (List.mem_cons.mpr (Or.inl h1.symm))
        · intro c hc
          rcases noWsBeforeNL_last_of_append hB c hc with h1 | h1
          · exact h1
          · exfalso
            apply hwnl
            rw [← h1]
            exact mem_of_getLast?_some hc
      · refine ih rest ?_ ?_ ?_ ?_ ?_ l hl2
        · have hlen2 : (w ++ '\n' :: rest).length = w.length + (rest.length + 1) := by
            rw [List.length_append, List.length_cons]
          rw [hlen2] at hlen
          omega
        · exact @noWsAfterNL_suffix (w ++ ['\n']) _
            (by rw [List.append_assoc]; exact hA)
        · exact @noWsBeforeNL_suffix (w ++ ['\n']) _
            (by rw [List.append_assoc]; exact hB)
        · exact noWsAfterNL_head_of_append hA
        · intro c hc
          have hrne : rest ≠ [] := by
            intro h0
            rw [h0] at hc
            simp at hc
          apply hL c
          rw [show w ++ '\n' :: rest = (w ++ ['\n']) ++ rest from by
            rw [List.append_assoc]; rfl]
          rw [getLast?_append_right hrne]
          exact hc
    · rw [splitNL_no_nl_eq hnl] at hl
      rcases List.mem_cons.mp hl with rfl | h2
      · apply pyStrip_eq_self
        · intro c hc
          rcases hH c hc with h1 | h1
          · exact h1
          · exfalso
            apply hnl
            rw [← h1]
            exact mem_of_head?_some hc
        · intro c hc
          rcases hL c hc with h1 | h1
          · exact h1
          · exfalso
            apply hnl
            rw [← h1]
            exact mem_of_getLast?_some hc
      · exact absurd h2 (List.not_mem_nil l)

theorem lines_strip_fixed {s : List Char}
    (hA : noWsAfterNL s = true) (hB : noWsBeforeNL s = true)
    (hH : ∀ c, s.head? = some c → isSpacePy c = false ∨ c = '\n')
    (hL : ∀ c, s.getLast? = some c → isSpacePy c = false ∨ c = '\n') :
    ∀ l ∈ splitNL s, pyStrip l = l :=
  lines_strip_fixed_aux s.length s (Nat.le_refl _) hA hB hH hL

theorem rew_lines_nonl (s : List Char) :
    ∀ l ∈ (splitNL (subBlank (collapseSpaces s))).map pyStrip, '\n' ∉ l := by
  intro l hl
  rcases List.mem_map.mp hl with ⟨l0, hl0, rfl⟩
  intro hm
  exact splitNL_no_nl hl0 (mem_pyStrip hm)

theorem rew_lines_fixed (s : List Char) :
    ∀ l ∈ (splitNL (subBlank (collapseSpaces s))).map pyStrip, pyStrip l = l := by
  intro l hl
  rcases List.mem_map.mp hl with ⟨l0, hl0, rfl⟩
  exact pyStrip_idem l0

theorem rew_noDoubleSpace (s : List Char) :
    noDoubleSpace (remove_extra_whitespace s) = true := by
  unfold remove_extra_whitespace
  apply noDoubleSpace_joinNL
  intro l hl
  rcases List.mem_map.mp hl with ⟨l0, hl0, rfl⟩
  apply noDoubleSpace_pyStrip
  exact noDoubleSpace_lines
    (noDoubleSpace_subBlankF _ _ (noDoubleSpace_collapseSpaces s)) l0 hl0

theorem rew_noWsAfterNL (s : List Char) :
    noWsAfterNL (remove_extra_whitespace s) = true := by
  unfold remove_extra_whitespace
  exact noWsAfterNL_joinNL _ (rew_lines_nonl s) (rew_lines_fixed s)

theorem rew_noWsBeforeNL (s : List Char) :
    noWsBeforeNL (remove_extra_whitespace s) = true := by
  unfold remove_extra_whitespace
  exact noWsBeforeNL_joinNL _ (rew_lines_nonl s) (rew_lines_fixed s)

theorem rew_noTripleNL (s : List Char) :
    noTripleNL (remove_extra_whitespace s) = true := by
  unfold remove_extra_whitespace
  have hu : noWsGap (subBlank (collapseSpaces s)) = true :=
    noWsGap_subBlankF _ _ (Nat.le_refl _)
  have ht : noTripleNL (subBlank (collapseSpaces s)) = true :=
    noTripleNL_subBlankF _ _ (Nat.le_refl _)
  exact noTripleNL_joinNL _ (rew_lines_nonl s) (noMidPair_lines _ hu ht)

theorem rew_head_ok (s : List Char) :
    ∀ c, (remove_extra_whitespace s).head? = some c →
      isSpacePy c = false ∨ c = '\n' := by
  intro c hc
  exact joinNL_head_ok _ (rew_lines_fixed s) c hc

theorem rew_last_ok (s : List Char) :
    ∀ c, (remove_extra_whitespace s).getLast? = some c →
      isSpacePy c = false ∨ c = '\n' := by
  intro c hc
  exact joinNL_last_ok _ (rew_lines_fixed s) c hc

theorem mem_remove_extra_whitespace {c : Char} {s : List Char}
    (h : c ∈ remove_extra_whitespace s) : c ∈ s ∨ c = '\n' := by
  unfold remove_extra_whitespace at h
  rcases mem_joinNL h with ⟨l, hl, hc⟩ | hnl
  · rcases List.mem_map.mp hl with ⟨l0, hl0, rfl⟩
    have hcu : c ∈ subBlank (collapseSpaces s) := mem_splitNL_line hl0 (mem_pyStrip hc)
    rcases mem_subBlankF _ _ _ hcu with h1 | h1
    · exact Or.inl (mem_collapseSpaces h1)
    · exact Or.inr h1
  · exact Or.inr hnl

theorem remove_extra_whitespace_eq_self {t : List Char}
    (hD : noDoubleSpace t = true) (hA : noWsAfterNL t = true)
    (hB : noWsBeforeNL t = true) (hT : noTripleNL t = true)
    (hH : ∀ c, t.head? = some c → isSpacePy c = false ∨ c = '\n')
    (hL : ∀ c, t.getLast? = some c → isSpacePy c = false ∨ c = '\n') :
    remove_extra_whitespace t = t := by
  unfold remove_extra_whitespace
  rw [collapseSpaces_eq_self hD, subBlank_eq_self hA hT,
    map_pyStrip_fix (lines_strip_fixed hA hB hH hL), joinNL_splitNL]

theorem allowedChar_nl (pb : Bool) : allowedChar pb '\n' = true := rfl

theorem filter_allowed_eq_self {t : List Char} {pb : Bool}
    (h : ∀ c ∈ t, allowedChar pb c = true) :
    remove_special_characters t pb = t := by
  unfold remove_special_characters
  exact List.filter_eq_self.mpr h

theorem preprocess_eq_some {s t : List Char} {ag : Bool}
    (h : preprocess s ag = some t) :
    t = pyStrip (remove_special_characters (remove_extra_whitespace s) (!ag)) ∧
      t ≠ [] := by
  have h' : (if (pyStrip s).isEmpty then (none : Option (List Char))
      else if (pyStrip (remove_special_characters (remove_extra_whitespace s) (!ag))).isEmpty
        then none
        else some (pyStrip (remove_special_characters (remove_extra_whitespace s) (!ag))))
      = some t := h
  by_cases h1 : (pyStrip s).isEmpty = true
  · rw [if_pos h1] at h'
    exact absurd h' (by simp)
  · rw [if_neg h1] at h'
    by_cases h2 :
        (pyStrip (remove_special_characters (remove_extra_whitespace s) (!ag))).isEmpty = true
    · rw [if_pos h2] at h'
      exact absurd h' (by simp)
    · rw [if_neg h2] at h'
      refine ⟨(Option.some.inj h').symm, ?_⟩
      intro h0
      apply h2
      rw [(Option.some.inj h').trans h0]
      rfl

theorem preprocess_fixed {t : List Char} {ag : Bool}
    (hfix : pyStrip t = t) (hne : t ≠ [])
    (hrew : remove_extra_whitespace t = t)
    (hfil : remove_special_characters t (!ag) = t) :
    preprocess t ag = some t := by
  have hne2 : t.isEmpty = false := by
    cases t with
    | nil => exact absurd rfl hne
    | cons x xs => rfl
  show (if (pyStrip t).isEmpty then (none : Option (List Char))
      else if (pyStrip (remove_special_characters (remove_extra_whitespace t) (!ag))).isEmpty
        then none
        else some (pyStrip (remove_special_characters (remove_extra_whitespace t) (!ag))))
      = some t
  rw [hrew, hfil, hfix, hne2]
  simp only [Bool.false_eq_true, if_false]

theorem preprocess_some_pure {s t : List Char} {ag : Bool}
    (hpure : ∀ c ∈ s, allowedChar (!ag) c = true)
    (h : preprocess s ag = some t) :
    t = pyStrip (remove_extra_whitespace s) := by
  have hp : ∀ c ∈ remove_extra_whitespace s, allowedChar (!ag) c = true := by
    intro c hc
    rcases mem_remove_extra_whitespace hc with h1 | h1
    · exact hpure c h1
    · rw [h1]; exact allowedChar_nl _
  obtain ⟨ht, -⟩ := preprocess_eq_some h
  rw [ht, filter_allowed_eq_self hp]

/-! ## Claim C5 — idempotence of `preprocess` -/

/-- C5 (corrected): `preprocess` is idempotent on inputs whose characters
all lie in the allowed character set of the active mode: if such an input
cleans to `some t`, then cleaning `t` again returns `some t` unchanged, in
both the default and the aggressive mode.  (On inputs containing
disallowed characters idempotence fails, see the counterexample: the
character filter runs after whitespace normalization and can create new
double spaces.) -/
theorem preprocess_idem_allowed (s : List Char) (ag : Bool)
    (hpure : ∀ c ∈ s, allowedChar (!ag) c = true) (t : List Char)
    (h : preprocess s ag = some t) : preprocess t ag = some t := by
  have ht : t = pyStrip (remove_extra_whitespace s) := preprocess_some_pure hpure h
  obtain ⟨-, hne⟩ := preprocess_eq_some h
  have hD : noDoubleSpace t = true := by
    rw [ht]; exact noDoubleSpace_pyStrip (rew_noDoubleSpace s)
  have hA : noWsAfterNL t = true := by
    rw [ht]; exact noWsAfterNL_pyStrip (rew_noWsAfterNL s)
  have hB : noWsBeforeNL t = true := by
    rw [ht]; exact noWsBeforeNL_pyStrip (rew_noWsBeforeNL s)
  have hT : noTripleNL t = true := by
    rw [ht]; exact noTripleNL_pyStrip (rew_noTripleNL s)
  have hH : ∀ c, t.head? = some c → isSpacePy c = false ∨ c = '\n' := by
    intro c hc
    rw [ht] at hc
    exact Or.inl (pyStrip_head_not_ws hc)
  have hL : ∀ c, t.getLast? = some c → isSpacePy c = false ∨ c = '\n' := by
    intro c hc
    rw [ht] at hc
    exact Or.inl (pyStrip_last_not_ws hc)
  have htpure : ∀ c ∈ t, allowedChar (!ag) c = true := by
    intro c hc
    rw [ht] at hc
    rcases mem_remove_extra_whitespace (mem_pyStrip hc) with h1 | h1
    · exact hpure c h1
    · rw [h1]; exact allowedChar_nl _
  apply preprocess_fixed
  · rw [ht]; exact pyStrip_idem _
  · exact hne
  · exact remove_extra_whitespace_eq_self hD hA hB hT hH hL
  · exact filter_allowed_eq_self htpure

theorem preprocess_idem_allowed_witness :
    (∀ c ∈ "ab  cd".toList, allowedChar (!false) c = true) ∧
      preprocess "ab cd".toList false = some "ab cd".toList :=
  ⟨by decide,
    preprocess_idem_allowed "ab  cd".toList false (by decide) "ab cd".toList (by decide)⟩

/-- C5 counterexample: on the input `"a € b"` (which contains the
disallowed character `'€'`) `preprocess` is not idempotent in the default
mode: the first pass yields `"a  b"` (the filter deletes `'€'` after space
collapsing, creating a double space) and the second pass collapses it to
`"a b"`. -/
theorem preprocess_not_idempotent :
    (preprocess "a € b".toList false).bind (fun t => preprocess t false)
      ≠ preprocess "a € b".toList false := by decide

/-! ## Claim C6 — the NormalizedText invariant -/

/-- C6 (corrected): for every input on which `preprocess` succeeds, the
returned text is stripped (no leading or trailing whitespace, hence no
leading or trailing blank lines), non-empty, and contains only characters
from the fixed allowed set of the active mode; the no-2+-space-run clause
of the invariant holds whenever the input itself contains only allowed
characters (but can fail otherwise, see the counterexample). -/
theorem preprocess_output_invariant (s : List Char) (ag : Bool) (t : List Char)
    (h : preprocess s ag = some t) :
    pyStrip t = t ∧ t ≠ [] ∧ (∀ c ∈ t, allowedChar (!ag) c = true) ∧
      ((∀ c ∈ s, allowedChar (!ag) c = true) → noDoubleSpace t = true) := by
  obtain ⟨ht, hne⟩ := preprocess_eq_some h
  refine ⟨?_, hne, ?_, ?_⟩
  · rw [ht]; exact pyStrip_idem _
  · intro c hc
    rw [ht] at hc
    exact (List.mem_filter.mp (mem_pyStrip hc)).2
  · intro hpure
    have ht2 : t = pyStrip (remove_extra_whitespace s) := preprocess_some_pure hpure h
    rw [ht2]
    exact noDoubleSpace_pyStrip (rew_noDoubleSpace s)

theorem preprocess_output_invariant_witness :
    pyStrip "a b".toList = "a b".toList ∧ "a b".toList ≠ ([] : List Char) ∧
      (∀ c ∈ "a b".toList, allowedChar (!false) c = true) ∧
      ((∀ c ∈ "  a  b ".toList, allowedChar (!false) c = true) →
        noDoubleSpace "a b".toList = true) :=
  preprocess_output_invariant "  a  b ".toList false "a b".toList (by decide)

/-- C6 counterexample: the input `"x € y"` cleans successfully to
`"x  y"`, which contains a run of two spaces — the character filter runs
after whitespace normalization, so the no-2+-space-run clause of the
invariant does not hold for every successful input. -/
theorem preprocess_invariant_violated :
    preprocess "x € y".toList false = some "x  y".toList ∧
      noDoubleSpace "x  y".toList = false :=
  ⟨by decide, by decide⟩
